import Mathlib

/-
  Verification development for the `re` code-review tool.

  The program renders a pull request's diff plus existing comments into an
  editable text template and parses the edited template back into a review
  request (`parseFile` in review.go).  Here the relevant functions are
  embedded shallowly: Go strings become `List Char` (one `Char` per byte;
  every input of interest is ASCII), Go `int` becomes `Int` (with the 64-bit
  range check made explicit where `strconv.Atoi` can overflow), and the
  line-scanning loops become folds over the list of `SplitAfter` fragments.
-/

set_option linter.unusedVariables false
set_option linter.unusedTactic false
set_option linter.unnecessarySimpa false
set_option linter.unnecessarySeqFocus false

/-- Go strings, viewed as their byte sequences. -/
abbrev Str := List Char

/-- `strings.SplitAfter(s, "\n")`: fragments that each end with the
separator, the last fragment (possibly empty) without one. -/
def splitAfterNL : Str → List Str
  | [] => [[]]
  | c :: rest =>
    if c = '\n' then ['\n'] :: splitAfterNL rest
    else
      match splitAfterNL rest with
      | [] => [[c]]
      | r :: rs => (c :: r) :: rs

/-- `strings.Split(s, "\n")`: the separator is removed. -/
def splitNL : Str → List Str
  | [] => [[]]
  | c :: rest =>
    if c = '\n' then [] :: splitNL rest
    else
      match splitNL rest with
      | [] => [[c]]
      | r :: rs => (c :: r) :: rs

/-- `strings.TrimRight(s, "\n")`. -/
def trimRightNL (s : Str) : Str :=
  (s.reverse.dropWhile (fun c => c = '\n')).reverse

/-- Slice `dat[a:b]` of a Go string (both call sites of the slice in
`parseFile` only reach it with `0 ≤ a ≤ b ≤ len dat`, where it agrees with
Go; out of that range Go would panic and this model truncates). -/
def sliceI (dat : Str) (a b : Int) : Str :=
  (dat.drop a.toNat).take (b - a).toNat

/-- Go's `\w` character class (ASCII word characters). -/
def isWordChar (c : Char) : Bool := c.isAlphanum || c = '_'

/-- Numeric value of a decimal digit string. -/
def digitsVal (ds : Str) : Nat :=
  ds.foldl (fun n c => n * 10 + (c.toNat - 48)) 0

/-- `strconv.Atoi` succeeds on a (sign-less) digit string iff the value fits
in a 64-bit `int`; otherwise it reports `ErrRange`. -/
def atoiOk (ds : Str) : Bool := digitsVal ds < 2 ^ 63

/-- Matcher for `threadId = ^\* Comment by @\w+ \([^\)]+\) thread (\d+)$`
(review.go line 460); returns the captured digit group.  The regex is
deterministic: `\w+` and `[^\)]+` are runs ended by the following literal. -/
def threadDigits (l : Str) : Option Str :=
  if ("* Comment by @".toList).isPrefixOf l then
    let r1 := l.drop 14
    let w := r1.takeWhile isWordChar
    let r2 := r1.dropWhile isWordChar
    if w = [] then none
    else if (" (".toList).isPrefixOf r2 then
      let r3 := r2.drop 2
      let d := r3.takeWhile (fun c => c ≠ ')')
      let r4 := r3.dropWhile (fun c => c ≠ ')')
      if d = [] then none
      else
        match r4 with
        | ')' :: r5 =>
          if (" thread ".toList).isPrefixOf r5 then
            let ds := r5.drop 8
            if ds ≠ [] ∧ ds.all Char.isDigit then some ds else none
          else none
        | _ => none
    else none
  else none

/-- `topLevelStartMarker` (review.go line 278). -/
def topLevelStartMarker : Str := "# ------ BEGIN  TOP-LEVEL REVIEW COMMENTS ----- #".toList

/-- `topLevelEndMarker` (review.go line 279). -/
def topLevelEndMarker : Str := "# ------ END OF TOP-LEVEL REVIEW COMMENTS ----- #".toList

/-- `inlineStartMarker = strings.Repeat("*", 79) + "v"` (review.go line 280). -/
def inlineStartMarker : Str := List.replicate 79 '*' ++ ['v']

/-- `inlineEndMarker = strings.Repeat("*", 79) + "^"` (review.go line 281). -/
def inlineEndMarker : Str := List.replicate 79 '*' ++ ['^']

/-- The tag `parseFile` appends to a top-level body (review.go line 501). -/
def reSuffix : Str := "\n<!-- review by re -->".toList

/-- `github.DraftReviewComment` as produced by `makeDraftReviewComment` plus
the body assignment in the scan loop. -/
structure DraftReviewComment where
  path : Str
  position : Int
  body : Option Str
deriving DecidableEq, Repr

/-- `makeDraftReviewComment` (review.go lines 595-600); the `Body` field is
still unset (`nil`) at this point. -/
def makeDraftReviewComment (path : Str) (position : Int) : DraftReviewComment :=
  { path := path, position := position, body := none }

/-- The fields of `github.PullRequestReviewRequest` that `parseFile` writes. -/
structure PullRequestReviewRequest where
  commitID : Option Str
  body : Option Str
  comments : List DraftReviewComment
deriving DecidableEq, Repr

/-- The local variables of the `parseFile` scan loop (review.go 465-482). -/
@[ext]
structure ParseState where
  commit : Str
  file : Str
  num : Int
  foundFirstHunk : Bool
  commentStart : Int
  lastCommentStart : Int
  topLevelCommentStart : Int
  lastInlineCommentId : Int
  reviewBody : Option Str
  reviewCommitID : Option Str
  comments : List DraftReviewComment
  off : Int
deriving DecidableEq, Repr

/-- Initial values of the loop variables (review.go 465-482). -/
def initState : ParseState :=
  { commit := [], file := [], num := 0, foundFirstHunk := false,
    commentStart := -1, lastCommentStart := -1, topLevelCommentStart := 0,
    lastInlineCommentId := 0, reviewBody := none, reviewCommitID := none,
    comments := [], off := 0 }

/-- Replace the last element of a list (Go `review.Comments[len(...)-1]`). -/
def updateLast (f : α → α) : List α → List α
  | [] => []
  | [a] => [f a]
  | a :: b :: rest => a :: updateLast f (b :: rest)

/-- The body of one iteration of the `parseFile` loop (review.go 483-590),
after the current offset and the trimmed line have been computed; `.error`
is the `return nil, err` after a failed `strconv.Atoi` (review.go 519-522). -/
def stepLine (dat : Str) (s : ParseState) (line : Str) (off : Int) :
    Except Unit ParseState :=
  let lastCS := s.commentStart
  let s1 : ParseState :=
    { s with lastCommentStart := lastCS, commentStart := -1, off := off }
  if line = topLevelStartMarker then
    .ok { s1 with topLevelCommentStart := off }
  else if line = topLevelEndMarker then
    let tlEnd : Int := off - (line.length : Int) - 2
    if tlEnd > s.topLevelCommentStart then
      .ok { s1 with
              reviewBody := some (sliceI dat s.topLevelCommentStart tlEnd ++ reSuffix),
              topLevelCommentStart := 0 }
    else
      .ok { s1 with topLevelCommentStart := 0 }
  else if s.topLevelCommentStart ≠ 0 then
    .ok s1
  else if line = inlineStartMarker then
    .ok s1
  else if line = inlineEndMarker then
    .ok { s1 with lastInlineCommentId := 0 }
  else
    match threadDigits line with
    | some ds =>
      if atoiOk ds then
        .ok { s1 with lastInlineCommentId := (digitsVal ds : Int) }
      else
        .error ()
    | none =>
      if ("commit ".toList).isPrefixOf line then
        .ok { s1 with foundFirstHunk := false, commit := line.drop 7,
                      reviewCommitID := some (line.drop 7) }
      else if ("diff --git ".toList).isPrefixOf line then
        .ok { s1 with foundFirstHunk := false }
      else if ("+++ b/".toList).isPrefixOf line then
        .ok { s1 with file := line.drop 6 }
      else if !s.foundFirstHunk then
        if ("@@".toList).isPrefixOf line then
          .ok { s1 with foundFirstHunk := true, num := 0 }
        else
          .ok s1
      else if line = [] then
        .ok s1
      else if line.head? = some '+' ∨ line.head? = some '-' ∨
              line.head? = some ' ' ∨ line.head? = some '@' then
        .ok { s1 with num := s.num + 1 }
      else if line.head? = some '*' ∨ line.head? = some '\t' then
        .ok s1
      else
        let cs : Int := if lastCS = -1 then off - (line.length : Int) - 1 else lastCS
        let comments :=
          if lastCS = -1 then s.comments ++ [makeDraftReviewComment s.file s.num]
          else s.comments
        .ok { s1 with
                commentStart := cs,
                comments := updateLast
                  (fun c => { c with body := some (sliceI dat cs (off - 1)) })
                  comments }

/-- One iteration of the `parseFile` loop on a `SplitAfter` fragment:
`off += len(line); line = strings.TrimRight(line, "\n")` (review.go 490-491)
followed by the branch chain. -/
def step (dat : Str) (s : ParseState) (frag : Str) : Except Unit ParseState :=
  stepLine dat s (trimRightNL frag) (s.off + frag.length)

/-- The `parseFile` loop over the fragments; an empty fragment is the loop's
`break` (review.go 486-488). -/
def runFrags (dat : Str) (s : ParseState) : List Str → Except Unit ParseState
  | [] => .ok s
  | f :: fs =>
    if f = [] then .ok s
    else
      match step dat s f with
      | .error e => .error e
      | .ok s' => runFrags dat s' fs

/-- `parseFile` (review.go 462-593). -/
def parseFile (dat : Str) : Except Unit PullRequestReviewRequest :=
  (runFrags dat initState (splitAfterNL dat)).map fun s =>
    { commitID := s.reviewCommitID, body := s.reviewBody, comments := s.comments }

/-- `strings.Replace(t, "\r\n", "\n", -1)` (main.go line 346). -/
def replaceCRLF : Str → Str
  | '\r' :: '\n' :: rest => '\n' :: replaceCRLF rest
  | c :: rest => c :: replaceCRLF rest
  | [] => []

/-- Index of the last space in a string, `strings.LastIndex(s, " ")`. -/
def lastSpaceIdx (l : Str) : Option Nat :=
  match l.reverse.findIdx? (fun c => c = ' ') with
  | some j => some (l.length - 1 - j)
  | none => none

/-- The break index of the inner loop of `wrap` (main.go 353-358):
`i := strings.LastIndex(s[:70], " "); if i < 0 { i = 69 }; i++`. -/
def breakIdx (s : Str) : Nat :=
  match lastSpaceIdx (s.take 70) with
  | some j => j + 1
  | none => 70

/-- The inner `for len(s) > 70` loop of `wrap` (main.go 353-361), emitting
`"\n" + prefix` between the pieces of one over-long logical line.  The loop
shortens `s` by at least one character per round, so running it with the
initial length as fuel is exact. -/
def breakLongFuel (pfx : Str) : Nat → Str → Str
  | 0, s => s
  | fuel + 1, s =>
    if 70 < s.length then
      s.take (breakIdx s) ++
        '\n' :: (pfx ++ breakLongFuel pfx fuel (s.drop (breakIdx s)))
    else s

/-- The inner loop of `wrap`, started with enough fuel. -/
def breakLong (pfx : Str) (s : Str) : Str := breakLongFuel pfx s.length s

/-- The outer per-line loop of `wrap` (main.go 348-363): `"\n" + prefix`
before every logical line but the first. -/
def wrapLines (pfx : Str) : List Str → Str
  | [] => []
  | [l] => breakLong pfx l
  | l :: l2 :: rest => breakLong pfx l ++ '\n' :: (pfx ++ wrapLines pfx (l2 :: rest))

/-- `wrap` (main.go 344-365). -/
def wrap (t : Str) (pfx : Str) : Str :=
  wrapLines pfx (splitNL (replaceCRLF t))

/-- `lineComments`, `fileComments`, `commitComments` (review.go 24-26), as
nested association maps (Go map iteration order is unobservable through
`get`, so an association list is an adequate model). -/
def LineComments (α : Type) := List (Int × List α)

/-- File-path level of the nested comment index. -/
def FileComments (α : Type) := List (Str × LineComments α)

/-- Commit level of the nested comment index. -/
def CommitComments (α : Type) := List (Str × FileComments α)

/-- The fields of `github.PullRequestComment` that `put` and the template
encoder read.  `CommitID` and `Path` are dereferenced unconditionally by
`put`, so they are modelled as plain strings; `Position` keeps its `nil`
case.  Timestamps are modelled as their already-formatted text. -/
structure GoComment where
  commitID : Str
  path : Str
  position : Option Int
  id : Int
  userLogin : Str
  createdAt : Str
  body : Str
  inReplyTo : Option Int
deriving DecidableEq, Repr

/-- Association-list lookup with decidable key equality (Go map read). -/
def lookupA [DecidableEq κ] (k : κ) : List (κ × β) → Option β
  | [] => none
  | (k', v) :: rest => if k = k' then some v else lookupA k rest

/-- Association-list update-or-insert (Go map write). -/
def updA [DecidableEq κ] (k : κ) (f : Option β → β) : List (κ × β) → List (κ × β)
  | [] => [(k, f none)]
  | (k', v) :: rest =>
    if k = k' then (k, f (some v)) :: rest else (k', v) :: updA k f rest

/-- `commitComments.get` (review.go 28-37); `none` is Go's `nil` result. -/
def CommitComments.get (c : CommitComments GoComment) (commit : Str) (file : Str)
    (line : Int) : Option (List GoComment) :=
  match lookupA commit c with
  | none => none
  | some files =>
    match lookupA file files with
    | none => none
    | some lines => lookupA line lines

/-- `commitComments.put` (review.go 39-54): comments with `nil` position are
skipped, everything else is appended at its (commit, file, line) key. -/
def CommitComments.put (c : CommitComments GoComment) (comment : GoComment) :
    CommitComments GoComment :=
  match comment.position with
  | none => c
  | some line =>
    updA comment.commitID
      (fun files =>
        updA comment.path
          (fun lines =>
            updA line (fun l => l.getD [] ++ [comment]) (lines.getD []))
          (files.getD []))
      c

/-- The pull-request metadata `printPR` renders; timestamps and the PR
number are modelled as their already-formatted text (formatting them is an
external concern). -/
structure PRData where
  userLogin : Str
  createdAt : Str
  title : Str
  state : Str
  merged : Option Str
  closed : Option Str
  number : Str
  body : Option Str

/-- `topLevelComment` (review.go 56-64): a review or issue comment shown in
the discussion section, with its timestamp as formatted text. -/
structure TopLevelEntry where
  body : Str
  author : Str
  createdAt : Str
  state : Str

/-- Go `unicode.IsSpace` restricted to ASCII (the range these inputs use). -/
def isGoSpace (c : Char) : Bool :=
  c = ' ' || c = '\t' || c = '\n' || c = '\r' ||
  c = Char.ofNat 11 || c = Char.ofNat 12

/-- `strings.TrimSpace`. -/
def goTrimSpace (s : Str) : Str :=
  ((s.dropWhile isGoSpace).reverse.dropWhile isGoSpace).reverse

/-- `strings.Contains(hay, needle)`. -/
def containsSub (hay needle : Str) : Bool :=
  if needle.isPrefixOf hay then true
  else
    match hay with
    | [] => false
    | _ :: t => containsSub t needle

/-- The action word for a review state (review.go 325-333). -/
def actionFor (state : Str) : Str :=
  if state = "APPROVE".toList then "Approved".toList
  else if state = "REQUEST_CHANGES".toList then "Changes requested".toList
  else if state = "PENDING".toList then "Draft comment".toList
  else "Comment".toList

/-- One discussion entry as `printPR` renders it (review.go 312-336):
empty and Reviewable-boilerplate bodies are skipped. -/
def renderTopLevel (com : TopLevelEntry) : Str :=
  let text := goTrimSpace com.body
  if text = [] then []
  else if containsSub text ("<!-- Reviewable:start -->".toList) then []
  else
    '\n' :: (actionFor com.state ++ " by ".toList ++ com.author ++
      " (".toList ++ com.createdAt ++ ")\n".toList ++
      "\n\t".toList ++ wrap text ['\t'] ++ ['\n'])

/-- The fixed instruction block of the template (review.go 338-351),
including the adjacent top-level marker pair. -/
def instructionsBlock : Str :=
  "\n# Add top-level review comments by typing between the marker lines below.\n# Don't modify the markers!\n\n".toList ++
  topLevelStartMarker ++ ['\n'] ++ topLevelEndMarker ++
  "\n\n# Add ordinary review comments by typing on a new line below the line of the\n# diff you'd like to comment on. Comments may not begin with the special\n# characters <space>, +, -, @, or *.\n#\n# Pre-existing comments are prefixed with *.\n\n".toList

/-- `printPR` (review.go 284-353); the `git diff --stat` output is the
`statText` input, and the discussion list is assumed already sorted (the
sort happens before `printPR` is called). -/
def printPR (owner repo : Str) (pr : PRData) (statText : Str)
    (comments : List TopLevelEntry) : Str :=
  "commit 0000000000000000000000000000000000000000\n".toList ++
  "Author: ".toList ++ pr.userLogin ++ " <>\n".toList ++
  "Date:   ".toList ++ pr.createdAt ++ ['\n'] ++
  "Title:  ".toList ++ pr.title ++ ['\n'] ++
  "State:  ".toList ++ pr.state ++ ['\n'] ++
  (match pr.merged with
   | some m => "Merged: ".toList ++ m ++ ['\n']
   | none => []) ++
  (match pr.closed with
   | some c => "Closed: ".toList ++ c ++ ['\n']
   | none => []) ++
  "URL:    https://github.com/".toList ++ owner ++ ['/'] ++ repo ++
  "/pull/".toList ++ pr.number ++ "\n\n".toList ++
  statText ++
  "\nCreated by ".toList ++ pr.userLogin ++ " (".toList ++ pr.createdAt ++ ")\n".toList ++
  (match pr.body with
   | some b =>
     let text := goTrimSpace b
     if text = [] then [] else "\n\t".toList ++ wrap text ['\t'] ++ ['\n']
   | none => []) ++
  (comments.map renderTopLevel).flatten ++
  ['\n'] ++ instructionsBlock

/-- The first line of an echoed inline comment (review.go 251-255); the
thread id is appended only for comments that are not themselves replies. -/
def echoHeader (c : GoComment) : Str :=
  "* Comment by @".toList ++ c.userLogin ++ " (".toList ++ c.createdAt ++ [')'] ++
  (match c.inReplyTo with
   | none => " thread ".toList ++ (toString c.id).toList
   | some _ => [])

/-- One echoed inline comment (review.go 251-256): header line plus the
body wrapped with the `*`-tab continuation`. -/
def echoComment (c : GoComment) : Str :=
  echoHeader c ++ ['\n'] ++ "*\t".toList ++ wrap c.body "*\t".toList ++ ['\n']

/-- An inline comment block between the inline markers (review.go 248-259). -/
def inlineBlock (cs : List GoComment) : Str :=
  inlineStartMarker ++ ['\n'] ++ (cs.map echoComment).flatten ++ inlineEndMarker ++ ['\n']

/-- The diff-scanning state of `makeReviewTemplate` (review.go 206-209). -/
structure EncState where
  commit : Str
  file : Str
  num : Int
  foundFirstHunk : Bool

/-- Initial encoder state (review.go 206-209). -/
def encInit : EncState := { commit := [], file := [], num := 0, foundFirstHunk := false }

/-- The diff-echo loop of `makeReviewTemplate` (review.go 212-260): each
diff fragment is copied through, and after a counted line whose
(commit, file, position) key has existing comments, an inline block is
inserted. -/
def diffEcho (idx : CommitComments GoComment) (es : EncState) : List Str → Str
  | [] => []
  | f :: fs =>
    if f = [] then []
    else
      let line := trimRightNL f
      if ("commit ".toList).isPrefixOf line then
        f ++ diffEcho idx { es with foundFirstHunk := false, commit := line.drop 7 } fs
      else if ("diff --git ".toList).isPrefixOf line then
        f ++ diffEcho idx { es with foundFirstHunk := false } fs
      else if ("+++ b/".toList).isPrefixOf line then
        f ++ diffEcho idx { es with file := line.drop 6 } fs
      else if !es.foundFirstHunk then
        if ("@@".toList).isPrefixOf line then
          f ++ diffEcho idx { es with foundFirstHunk := true, num := 0 } fs
        else
          f ++ diffEcho idx es fs
      else
        match idx.get es.commit es.file (es.num + 1) with
        | some cs => f ++ inlineBlock cs ++ diffEcho idx { es with num := es.num + 1 } fs
        | none => f ++ diffEcho idx { es with num := es.num + 1 } fs

/-- The pure content core of `makeReviewTemplate` (review.go 72-273): the
`printPR` header followed by the annotated diff.  Fetching, sorting and the
temporary file are external concerns. -/
def makeReviewTemplate (owner repo : Str) (pr : PRData) (statText : Str)
    (discussion : List TopLevelEntry) (idx : CommitComments GoComment)
    (diffText : Str) : Str :=
  printPR owner repo pr statText discussion ++ diffEcho idx encInit (splitAfterNL diffText)

/-- A line on which the decoder's `strconv.Atoi` call fails: it matches the
thread-id pattern but its digits exceed the 64-bit `int` range. -/
def overflowLine (l : Str) : Bool :=
  match threadDigits l with
  | some ds => !atoiOk ds
  | none => false

/-- A diff-body line as the decoder counts it after the first hunk: special
first character, not a `+++ b/` file header (and a single line). -/
def isDiffBodyLine (l : Str) : Bool :=
  (l.head? = some '+' || l.head? = some '-' || l.head? = some ' ' ||
   l.head? = some '@') &&
  !(("+++ b/".toList).isPrefixOf l) && !l.contains '\n'

/-- A user-typed free-text comment line: non-empty, does not begin with a
special diff character, `*` or tab, is not a header or marker line (and is
a single line). -/
def isFreeTextLine (l : Str) : Bool :=
  !l.isEmpty &&
  !(l.head? = some '+' || l.head? = some '-' || l.head? = some ' ' ||
    l.head? = some '@' || l.head? = some '*' || l.head? = some '\t') &&
  !(("commit ".toList).isPrefixOf l) && !(("diff --git ".toList).isPrefixOf l) &&
  l ≠ topLevelStartMarker && l ≠ topLevelEndMarker && !l.contains '\n'

/-- A block of newline-terminated lines. -/
def linesJoin (ls : List Str) : Str := (ls.map (fun l => l ++ ['\n'])).flatten

/-- Post-first-hunk lines after which the decoder stays comment-free:
blank, special-first-character, or a section header. -/
def postHunkOK (l : Str) : Bool :=
  l.isEmpty || l.head? = some '+' || l.head? = some '-' || l.head? = some ' ' ||
  l.head? = some '@' || ("commit ".toList).isPrefixOf l ||
  ("diff --git ".toList).isPrefixOf l

/-- Per-line well-formedness of raw diff text, relative to whether the
shared indexer has seen the current file's first hunk. -/
def lineOKB (ffh : Bool) (l : Str) : Bool :=
  l ≠ topLevelStartMarker && l ≠ topLevelEndMarker && !overflowLine l &&
  (!ffh || postHunkOK l)

/-- The hunk-tracking transition shared by encoder and decoder. -/
def nextFFH (ffh : Bool) (l : Str) : Bool :=
  if ("commit ".toList).isPrefixOf l || ("diff --git ".toList).isPrefixOf l then false
  else if !ffh && ("@@".toList).isPrefixOf l then true
  else ffh

/-- Scan of diff fragments checking `lineOKB` at every line. -/
def checkFrags (ffh : Bool) : List Str → Bool
  | [] => true
  | f :: fs =>
    if f = [] then true
    else lineOKB ffh (trimRightNL f) && checkFrags (nextFFH ffh (trimRightNL f)) fs

/-- Well-formed diff text: newline-terminated (or empty) and line-wise
disciplined. -/
def checkDiff (dt : Str) : Bool :=
  dt.isEmpty || (dt.getLast? = some '\n' && checkFrags false (splitAfterNL dt))

/-- An existing comment whose echo re-parses as inert: its header line is a
single line (author and timestamp contain no newline) and does not overflow
`Atoi` when it matches the thread-id pattern. -/
def validEchoComment (c : GoComment) : Bool :=
  !(echoHeader c).contains '\n' && !overflowLine (echoHeader c)

/-- An index whose stored comments all echo inertly. -/
def validIdx (idx : CommitComments GoComment) : Prop :=
  ∀ (commit file : Str) (n : Int) (cs : List GoComment),
    CommitComments.get idx commit file n = some cs →
    ∀ c ∈ cs, validEchoComment c = true

/-- The lines of one echoed comment: header plus the wrapped body lines. -/
def echoCommentLines (c : GoComment) : List Str :=
  echoHeader c :: splitNL ("*\t".toList ++ wrap c.body ("*\t".toList))

/-- The lines of an inline block. -/
def blockLines (cs : List GoComment) : List Str :=
  inlineStartMarker :: (cs.map echoCommentLines).flatten ++ [inlineEndMarker]

/-- The lines the diff-echo loop emits, at line level. -/
def echoLines (idx : CommitComments GoComment) (es : EncState) :
    List Str → List Str
  | [] => []
  | l :: ls =>
    if ("commit ".toList).isPrefixOf l then
      l :: echoLines idx { es with foundFirstHunk := false, commit := l.drop 7 } ls
    else if ("diff --git ".toList).isPrefixOf l then
      l :: echoLines idx { es with foundFirstHunk := false } ls
    else if ("+++ b/".toList).isPrefixOf l then
      l :: echoLines idx { es with file := l.drop 6 } ls
    else if !es.foundFirstHunk then
      if ("@@".toList).isPrefixOf l then
        l :: echoLines idx { es with foundFirstHunk := true, num := 0 } ls
      else
        l :: echoLines idx es ls
    else
      match idx.get es.commit es.file (es.num + 1) with
      | some cs =>
        l :: (blockLines cs ++ echoLines idx { es with num := es.num + 1 } ls)
      | none => l :: echoLines idx { es with num := es.num + 1 } ls

/-- `checkFrags` at line level. -/
def checkLines (ffh : Bool) : List Str → Bool
  | [] => true
  | l :: ls => lineOKB ffh l && checkLines (nextFFH ffh l) ls

/-- Fixed benign pull-request metadata used to state the round-trip claim. -/
def pr0 : PRData :=
  { userLogin := "octocat".toList, createdAt := "2018-01-01 00:00:00".toList,
    title := "T".toList, state := "open".toList, merged := none, closed := none,
    number := "1".toList, body := none }

/-- Modelled from the spec: the wrapping rule exactly as the claim words it,
breaking at the last whitespace (not only a space) at or before column 70.
Used only to compare the claimed rule with the implemented `wrap`. -/
def breakIdxW (s : Str) : Nat :=
  match
    (match (s.take 70).reverse.findIdx? isGoSpace with
     | some j => some ((s.take 70).length - 1 - j)
     | none => none)
  with
  | some j => j + 1
  | none => 70

/-- Modelled from the spec: the inner loop of the claimed whitespace-based
wrapping rule, in the same fuel style. -/
def breakLongFuelW (pfx : Str) : Nat → Str → Str
  | 0, s => s
  | fuel + 1, s =>
    if 70 < s.length then
      s.take (breakIdxW s) ++
        '\n' :: (pfx ++ breakLongFuelW pfx fuel (s.drop (breakIdxW s)))
    else s

/-- Modelled from the spec: the claimed whitespace-based inner loop. -/
def breakLongW (pfx : Str) (s : Str) : Str := breakLongFuelW pfx s.length s

/-- Modelled from the spec: per-line loop of the whitespace-based rule. -/
def wrapLinesW (pfx : Str) : List Str → Str
  | [] => []
  | [l] => breakLongW pfx l
  | l :: l2 :: rest => breakLongW pfx l ++ '\n' :: (pfx ++ wrapLinesW pfx (l2 :: rest))

/-- Modelled from the spec: whitespace-based `wrap` per the claim's words. -/
def wrapW (t : Str) (pfx : Str) : Str :=
  wrapLinesW pfx (splitNL (replaceCRLF t))

/-- Lines of the fixed `printPR` header before the top-level markers, for
the round-trip statement (owner `o`, repo `r`, metadata `pr0`, empty status
text and discussion). -/
def hdrPre : List Str :=
  ["commit 0000000000000000000000000000000000000000".toList,
   "Author: octocat <>".toList,
   "Date:   2018-01-01 00:00:00".toList,
   "Title:  T".toList,
   "State:  open".toList,
   "URL:    https://github.com/o/r/pull/1".toList,
   [], [],
   "Created by octocat (2018-01-01 00:00:00)".toList,
   [], [],
   "# Add top-level review comments by typing between the marker lines below.".toList,
   "# Don't modify the markers!".toList,
   []]

/-- Lines of the fixed `printPR` header after the top-level markers. -/
def hdrPost : List Str :=
  [[],
   "# Add ordinary review comments by typing on a new line below the line of the".toList,
   "# diff you'd like to comment on. Comments may not begin with the special".toList,
   "# characters <space>, +, -, @, or *.".toList,
   "#".toList,
   "# Pre-existing comments are prefixed with *.".toList,
   []]

/-- Run the loop over a block of newline-terminated lines. -/
def runLines (dat : Str) (s : ParseState) (ls : List Str) :
    Except Unit ParseState :=
  runFrags dat s (ls.map (fun l => l ++ ['\n']))

/-- The unconditional per-iteration state update of the loop (review.go
484-491): shift `commentStart` into `lastCommentStart` and advance `off`. -/
def adv (s : ParseState) (off : Int) : ParseState :=
  { s with lastCommentStart := s.commentStart, commentStart := -1, off := off }

/-
  Lemma layer: fragments, lines, and single-step characterizations.
-/

theorem dropWhileNL_id (m : Str) (h : '\n' ∉ m) :
    m.dropWhile (fun c => c = '\n') = m := by
  cases m with
  | nil => rfl
  | cons a t =>
    have ha : a ≠ '\n' := fun he => h (he ▸ List.mem_cons_self a t)
    simp [List.dropWhile_cons, ha]

theorem trimRightNL_of_noNL (l : Str) (h : '\n' ∉ l) : trimRightNL l = l := by
  unfold trimRightNL
  rw [dropWhileNL_id l.reverse (by simpa using h)]
  exact List.reverse_reverse l

theorem trimRightNL_line (l : Str) (h : '\n' ∉ l) :
    trimRightNL (l ++ ['\n']) = l := by
  unfold trimRightNL
  have e : (l ++ ['\n']).reverse = '\n' :: l.reverse := by simp
  rw [e]
  simp only [List.dropWhile_cons, decide_True, if_pos]
  rw [dropWhileNL_id l.reverse (by simpa using h)]
  exact List.reverse_reverse l

theorem splitAfterNL_ne_nil (s : Str) : splitAfterNL s ≠ [] := by
  unfold splitAfterNL
  match s with
  | [] => simp
  | c :: rest =>
    by_cases h : c = '\n'
    · simp [h]
    · simp only [if_neg h]
      cases splitAfterNL rest <;> simp

theorem splitAfterNL_line (l : Str) (rest : Str) (h : '\n' ∉ l) :
    splitAfterNL (l ++ '\n' :: rest) = (l ++ ['\n']) :: splitAfterNL rest := by
  induction l with
  | nil => simp [splitAfterNL]
  | cons c cs ih =>
    have hc : c ≠ '\n' := fun he => h (he ▸ List.mem_cons_self c cs)
    have hcs : '\n' ∉ cs := fun hm => h (List.mem_cons_of_mem c hm)
    simp [splitAfterNL, hc, ih hcs]

theorem splitAfterNL_linesJoin (ls : List Str) (rest : Str)
    (h : ∀ l ∈ ls, '\n' ∉ l) :
    splitAfterNL (linesJoin ls ++ rest) =
      ls.map (fun l => l ++ ['\n']) ++ splitAfterNL rest := by
  induction ls with
  | nil => simp [linesJoin]
  | cons l ls ih =>
    have h1 : '\n' ∉ l := h l (List.mem_cons_self l ls)
    have h2 : ∀ x ∈ ls, '\n' ∉ x := fun x hx => h x (List.mem_cons_of_mem l hx)
    have e1 : linesJoin (l :: ls) ++ rest = l ++ '\n' :: (linesJoin ls ++ rest) := by
      simp [linesJoin]
    rw [e1, splitAfterNL_line l _ h1, ih h2]
    simp

theorem step_frag (dat : Str) (s : ParseState) (l : Str) (h : '\n' ∉ l) :
    step dat s (l ++ ['\n']) =
      stepLine dat s l (s.off + (l.length : Int) + 1) := by
  unfold step
  rw [trimRightNL_line l h]
  simp only [List.length_append, List.length_cons, List.length_nil]
  congr 1
  push_cast
  ring

theorem runFrags_append (dat : Str) (s : ParseState) (xs ys : List Str)
    (h : [] ∉ xs) :
    runFrags dat s (xs ++ ys) =
      match runFrags dat s xs with
      | .error e => .error e
      | .ok s' => runFrags dat s' ys := by
  induction xs generalizing s with
  | nil => simp [runFrags]
  | cons f fs ih =>
    have hf : f ≠ [] := fun he => h (he ▸ List.mem_cons_self f fs)
    have hfs : [] ∉ fs := fun hm => h (List.mem_cons_of_mem f hm)
    simp only [List.cons_append, runFrags, if_neg hf]
    cases step dat s f with
    | error e => rfl
    | ok s' => exact ih s' hfs

theorem runLines_nil (dat : Str) (s : ParseState) : runLines dat s [] = .ok s := rfl

theorem runLines_cons (dat : Str) (s : ParseState) (l : Str) (ls : List Str)
    (h : '\n' ∉ l) :
    runLines dat s (l :: ls) =
      match stepLine dat s l (s.off + (l.length : Int) + 1) with
      | .error e => .error e
      | .ok s' => runLines dat s' ls := by
  have hne : l ++ ['\n'] ≠ [] := by simp
  simp only [runLines, List.map_cons, runFrags, if_neg hne]
  rw [step_frag dat s l h]

theorem head?_of_prefix (c : Char) (p l : Str)
    (h : (c :: p).isPrefixOf l = true) : l.head? = some c := by
  cases l with
  | nil => simp [List.isPrefixOf] at h
  | cons a t =>
    simp only [List.isPrefixOf, Bool.and_eq_true, beq_iff_eq] at h
    simp [h.1]

theorem not_prefix_head (c : Char) (p l : Str) (h : l.head? ≠ some c) :
    (c :: p).isPrefixOf l = false := by
  cases hp : (c :: p).isPrefixOf l
  · rfl
  · exact absurd ( head?_of_prefix c p l hp) h

theorem ne_of_heads (l m : Str) (c : Char) (hm : m.head? = some c)
    (h : l.head? ≠ some c) : l ≠ m := fun he => h (he ▸ hm)

theorem not_commit_pfx (line : Str) (h : line.head? ≠ some 'c') :
    ¬(("commit ".toList).isPrefixOf line = true) := by
  rw [show ("commit ".toList) = 'c' :: "ommit ".toList from rfl,
    not_prefix_head 'c' _ line h]
  simp

theorem not_diff_pfx (line : Str) (h : line.head? ≠ some 'd') :
    ¬(("diff --git ".toList).isPrefixOf line = true) := by
  rw [show ("diff --git ".toList) = 'd' :: "iff --git ".toList from rfl,
    not_prefix_head 'd' _ line h]
  simp

theorem not_file_pfx (line : Str) (h : line.head? ≠ some '+') :
    ¬(("+++ b/".toList).isPrefixOf line = true) := by
  rw [show ("+++ b/".toList) = '+' :: "++ b/".toList from rfl,
    not_prefix_head '+' _ line h]
  simp

theorem not_hunk_pfx (line : Str) (h : line.head? ≠ some '@') :
    ¬(("@@".toList).isPrefixOf line = true) := by
  rw [show ("@@".toList) = '@' :: "@".toList from rfl,
    not_prefix_head '@' _ line h]
  simp

theorem threadDigits_none_of_head (l : Str) (h : l.head? ≠ some '*') :
    threadDigits l = none := by
  unfold threadDigits
  rw [show ("* Comment by @".toList) = '*' :: (" Comment by @".toList) from rfl,
    not_prefix_head '*' _ l h]
  simp

theorem tlStart_head : topLevelStartMarker.head? = some '#' := by decide

theorem tlEnd_head : topLevelEndMarker.head? = some '#' := by decide

theorem inlineStart_head : inlineStartMarker.head? = some '*' := by decide

theorem inlineEnd_head : inlineEndMarker.head? = some '*' := by decide

theorem stepLine_tlStart (dat : Str) (s : ParseState) (off : Int) :
    stepLine dat s topLevelStartMarker off =
      .ok { adv s off with topLevelCommentStart := off } := by
  simp only [stepLine]
  rw [if_pos trivial]
  rfl

theorem stepLine_tlEnd (dat : Str) (s : ParseState) (off : Int) :
    stepLine dat s topLevelEndMarker off =
      .ok (if off - (topLevelEndMarker.length : Int) - 2 > s.topLevelCommentStart
        then { adv s off with
                 reviewBody := some (sliceI dat s.topLevelCommentStart
                   (off - (topLevelEndMarker.length : Int) - 2) ++ reSuffix),
                 topLevelCommentStart := 0 }
        else { adv s off with topLevelCommentStart := 0 }) := by
  have hne : topLevelEndMarker ≠ topLevelStartMarker := by decide
  simp only [stepLine]
  rw [if_neg hne, if_pos trivial]
  split <;> rfl

theorem stepLine_region (dat : Str) (s : ParseState) (line : Str) (off : Int)
    (htl : s.topLevelCommentStart ≠ 0) (h1 : line ≠ topLevelStartMarker)
    (h2 : line ≠ topLevelEndMarker) :
    stepLine dat s line off = .ok (adv s off) := by
  simp only [stepLine]
  rw [if_neg h1, if_neg h2, if_pos htl]
  rfl

theorem stepLine_inlineStart (dat : Str) (s : ParseState) (off : Int)
    (htl : s.topLevelCommentStart = 0) :
    stepLine dat s inlineStartMarker off = .ok (adv s off) := by
  have h1 : inlineStartMarker ≠ topLevelStartMarker := by decide
  have h2 : inlineStartMarker ≠ topLevelEndMarker := by decide
  simp only [stepLine]
  rw [if_neg h1, if_neg h2, if_neg (fun hn => hn htl), if_pos trivial]
  rfl

theorem stepLine_inlineEnd (dat : Str) (s : ParseState) (off : Int)
    (htl : s.topLevelCommentStart = 0) :
    stepLine dat s inlineEndMarker off =
      .ok { adv s off with lastInlineCommentId := 0 } := by
  have h1 : inlineEndMarker ≠ topLevelStartMarker := by decide
  have h2 : inlineEndMarker ≠ topLevelEndMarker := by decide
  have h3 : inlineEndMarker ≠ inlineStartMarker := by decide
  simp only [stepLine]
  rw [if_neg h1, if_neg h2, if_neg (fun hn => hn htl), if_neg h3, if_pos trivial]
  rfl

theorem prefix_two (c1 c2 : Char) (p l : Str)
    (h : (c1 :: c2 :: p).isPrefixOf l = true) : ∃ t, l = c1 :: c2 :: t := by
  cases l with
  | nil => simp [List.isPrefixOf] at h
  | cons a t =>
    cases t with
    | nil => simp [List.isPrefixOf] at h
    | cons b u =>
      simp only [List.isPrefixOf, Bool.and_eq_true, beq_iff_eq] at h
      exact ⟨u, by rw [h.1, h.2.1]⟩

theorem threadDigits_prefix (l ds : Str) (h : threadDigits l = some ds) :
    ("* Comment by @".toList).isPrefixOf l = true := by
  by_cases hp : ("* Comment by @".toList).isPrefixOf l = true
  · exact hp
  · unfold threadDigits at h
    rw [if_neg hp] at h
    exact absurd h (by simp)

theorem threadLine_shape (l ds : Str) (h : threadDigits l = some ds) :
    ∃ t, l = '*' :: ' ' :: t := by
  have hp := threadDigits_prefix l ds h
  rw [show ("* Comment by @".toList) = '*' :: ' ' :: ("Comment by @".toList)
    from rfl] at hp
  exact prefix_two '*' ' ' _ l hp

theorem threadLine_ne_markers (l ds : Str) (h : threadDigits l = some ds) :
    l ≠ topLevelStartMarker ∧ l ≠ topLevelEndMarker ∧
    l ≠ inlineStartMarker ∧ l ≠ inlineEndMarker := by
  obtain ⟨t, rfl⟩ := threadLine_shape l ds h
  have hIS : inlineStartMarker.tail.head? = some '*' := by decide
  have hIE : inlineEndMarker.tail.head? = some '*' := by decide
  refine ⟨?_, ?_, ?_, ?_⟩ <;> intro he
  · have h2 := congrArg List.head? he
    rw [tlStart_head] at h2
    simp at h2
  · have h2 := congrArg List.head? he
    rw [tlEnd_head] at h2
    simp at h2
  · have h2 := congrArg (fun x : Str => x.tail.head?) he
    simp only [List.tail_cons, List.head?_cons] at h2
    rw [hIS] at h2
    simp at h2
  · have h2 := congrArg (fun x : Str => x.tail.head?) he
    simp only [List.tail_cons, List.head?_cons] at h2
    rw [hIE] at h2
    simp at h2

theorem stepLine_thread (dat : Str) (s : ParseState) (line : Str) (off : Int)
    (ds : Str) (htl : s.topLevelCommentStart = 0)
    (hts : threadDigits line = some ds) :
    stepLine dat s line off =
      (if atoiOk ds then
        .ok { adv s off with lastInlineCommentId := (digitsVal ds : Int) }
      else .error ()) := by
  obtain ⟨h1, h2, h3, h4⟩ := threadLine_ne_markers line ds hts
  simp only [stepLine]
  rw [if_neg h1, if_neg h2, if_neg (fun hn => hn htl), if_neg h3, if_neg h4, hts]
  rfl

theorem ne_marker_of_head (l m : Str) (c cm : Char) (hl : l.head? = some c)
    (hm : m.head? = some cm) (hne : c ≠ cm) : l ≠ m := by
  intro he
  have h2 : some c = some cm := by rw [← hl, he, hm]
  exact hne (Option.some.inj h2)

theorem stepLine_commitHdr (dat : Str) (s : ParseState) (line : Str) (off : Int)
    (htl : s.topLevelCommentStart = 0)
    (hpfx : ("commit ".toList).isPrefixOf line = true) :
    stepLine dat s line off =
      .ok { adv s off with foundFirstHunk := false, commit := line.drop 7,
                           reviewCommitID := some (line.drop 7) } := by
  have hh : line.head? = some 'c' := by
    apply head?_of_prefix 'c' ("ommit ".toList) line
    exact hpfx
  have h1 := ne_marker_of_head line _ _ _ hh tlStart_head (by decide)
  have h2 := ne_marker_of_head line _ _ _ hh tlEnd_head (by decide)
  have h3 := ne_marker_of_head line _ _ _ hh inlineStart_head (by decide)
  have h4 := ne_marker_of_head line _ _ _ hh inlineEnd_head (by decide)
  have ht : threadDigits line = none :=
    threadDigits_none_of_head line (by rw [hh]; decide)
  simp only [stepLine]
  rw [if_neg h1, if_neg h2, if_neg (fun hn => hn htl), if_neg h3, if_neg h4, ht,
    if_pos hpfx]
  rfl

theorem stepLine_diffHdr (dat : Str) (s : ParseState) (line : Str) (off : Int)
    (htl : s.topLevelCommentStart = 0)
    (hpfx : ("diff --git ".toList).isPrefixOf line = true) :
    stepLine dat s line off =
      .ok { adv s off with foundFirstHunk := false } := by
  have hh : line.head? = some 'd' := by
    apply head?_of_prefix 'd' ("iff --git ".toList) line
    exact hpfx
  have h1 := ne_marker_of_head line _ _ _ hh tlStart_head (by decide)
  have h2 := ne_marker_of_head line _ _ _ hh tlEnd_head (by decide)
  have h3 := ne_marker_of_head line _ _ _ hh inlineStart_head (by decide)
  have h4 := ne_marker_of_head line _ _ _ hh inlineEnd_head (by decide)
  have ht : threadDigits line = none :=
    threadDigits_none_of_head line (by rw [hh]; decide)
  have hc := not_commit_pfx line (by rw [hh]; decide)
  simp only [stepLine]
  rw [if_neg h1, if_neg h2, if_neg (fun hn => hn htl), if_neg h3, if_neg h4, ht,
    if_neg hc, if_pos hpfx]
  rfl

theorem stepLine_fileHdr (dat : Str) (s : ParseState) (line : Str) (off : Int)
    (htl : s.topLevelCommentStart = 0)
    (hpfx : ("+++ b/".toList).isPrefixOf line = true) :
    stepLine dat s line off = .ok { adv s off with file := line.drop 6 } := by
  have hh : line.head? = some '+' := by
    apply head?_of_prefix '+' ("++ b/".toList) line
    exact hpfx
  have h1 := ne_marker_of_head line _ _ _ hh tlStart_head (by decide)
  have h2 := ne_marker_of_head line _ _ _ hh tlEnd_head (by decide)
  have h3 := ne_marker_of_head line _ _ _ hh inlineStart_head (by decide)
  have h4 := ne_marker_of_head line _ _ _ hh inlineEnd_head (by decide)
  have ht : threadDigits line = none :=
    threadDigits_none_of_head line (by rw [hh]; decide)
  have hc := not_commit_pfx line (by rw [hh]; decide)
  have hd := not_diff_pfx line (by rw [hh]; decide)
  simp only [stepLine]
  rw [if_neg h1, if_neg h2, if_neg (fun hn => hn htl), if_neg h3, if_neg h4, ht,
    if_neg hc, if_neg hd, if_pos hpfx]
  rfl

theorem stepLine_hunkFirst (dat : Str) (s : ParseState) (line : Str) (off : Int)
    (htl : s.topLevelCommentStart = 0) (hffh : s.foundFirstHunk = false)
    (hpfx : ("@@".toList).isPrefixOf line = true) :
    stepLine dat s line off =
      .ok { adv s off with foundFirstHunk := true, num := 0 } := by
  have hh : line.head? = some '@' := by
    apply head?_of_prefix '@' ("@".toList) line
    exact hpfx
  have h1 := ne_marker_of_head line _ _ _ hh tlStart_head (by decide)
  have h2 := ne_marker_of_head line _ _ _ hh tlEnd_head (by decide)
  have h3 := ne_marker_of_head line _ _ _ hh inlineStart_head (by decide)
  have h4 := ne_marker_of_head line _ _ _ hh inlineEnd_head (by decide)
  have ht : threadDigits line = none :=
    threadDigits_none_of_head line (by rw [hh]; decide)
  have hc := not_commit_pfx line (by rw [hh]; decide)
  have hd := not_diff_pfx line (by rw [hh]; decide)
  have hf := not_file_pfx line (by rw [hh]; decide)
  simp only [stepLine]
  rw [if_neg h1, if_neg h2, if_neg (fun hn => hn htl), if_neg h3, if_neg h4, ht,
    if_neg hc, if_neg hd, if_neg hf, if_pos (by rw [hffh]; rfl), if_pos hpfx]
  rfl

theorem stepLine_preHunkOther (dat : Str) (s : ParseState) (line : Str)
    (off : Int) (htl : s.topLevelCommentStart = 0)
    (hffh : s.foundFirstHunk = false)
    (h1 : line ≠ topLevelStartMarker) (h2 : line ≠ topLevelEndMarker)
    (h3 : line ≠ inlineStartMarker) (h4 : line ≠ inlineEndMarker)
    (ht : threadDigits line = none)
    (hc : ¬(("commit ".toList).isPrefixOf line = true))
    (hd : ¬(("diff --git ".toList).isPrefixOf line = true))
    (hf : ¬(("+++ b/".toList).isPrefixOf line = true))
    (hk : ¬(("@@".toList).isPrefixOf line = true)) :
    stepLine dat s line off = .ok (adv s off) := by
  simp only [stepLine]
  rw [if_neg h1, if_neg h2, if_neg (fun hn => hn htl), if_neg h3, if_neg h4, ht,
    if_neg hc, if_neg hd, if_neg hf, if_pos (by rw [hffh]; rfl), if_neg hk]
  rfl

theorem updateLast_append_singleton (f : α → α) (xs : List α) (a : α) :
    updateLast f (xs ++ [a]) = xs ++ [f a] := by
  induction xs with
  | nil => rfl
  | cons x xs ih =>
    cases xs with
    | nil => rfl
    | cons y ys => simpa [updateLast] using ih

theorem isDiffBodyLine_spec (l : Str) (h : isDiffBodyLine l = true) :
    (l.head? = some '+' ∨ l.head? = some '-' ∨ l.head? = some ' ' ∨
     l.head? = some '@') ∧
    ¬(("+++ b/".toList).isPrefixOf l = true) ∧ '\n' ∉ l := by
  unfold isDiffBodyLine at h
  simp only [Bool.and_eq_true, Bool.or_eq_true, Bool.not_eq_true',
    decide_eq_true_eq] at h
  refine ⟨?_, ?_, by simpa using h.2⟩
  · tauto
  · rw [h.1.2]
    simp

theorem stepLine_diffBody (dat : Str) (s : ParseState) (line : Str) (off : Int)
    (htl : s.topLevelCommentStart = 0) (hffh : s.foundFirstHunk = true)
    (hl : isDiffBodyLine line = true) :
    stepLine dat s line off = .ok { adv s off with num := s.num + 1 } := by
  obtain ⟨hh, hf, _⟩ := isDiffBodyLine_spec line hl
  have hhne : ∀ c : Char, c ≠ '+' → c ≠ '-' → c ≠ ' ' → c ≠ '@' →
      line.head? ≠ some c := by
    intro c hc1 hc2 hc3 hc4 he
    rcases hh with hh | hh | hh | hh <;> rw [hh] at he <;>
      first
        | exact hc1 (Option.some.inj he).symm
        | exact hc2 (Option.some.inj he).symm
        | exact hc3 (Option.some.inj he).symm
        | exact hc4 (Option.some.inj he).symm
  have h1 : line ≠ topLevelStartMarker := by
    intro he
    exact hhne '#' (by decide) (by decide) (by decide) (by decide)
      (by rw [he, tlStart_head])
  have h2 : line ≠ topLevelEndMarker := by
    intro he
    exact hhne '#' (by decide) (by decide) (by decide) (by decide)
      (by rw [he, tlEnd_head])
  have h3 : line ≠ inlineStartMarker := by
    intro he
    exact hhne '*' (by decide) (by decide) (by decide) (by decide)
      (by rw [he, inlineStart_head])
  have h4 : line ≠ inlineEndMarker := by
    intro he
    exact hhne '*' (by decide) (by decide) (by decide) (by decide)
      (by rw [he, inlineEnd_head])
  have ht : threadDigits line = none :=
    threadDigits_none_of_head line
      (hhne '*' (by decide) (by decide) (by decide) (by decide))
  have hc := not_commit_pfx line
    (hhne 'c' (by decide) (by decide) (by decide) (by decide))
  have hd := not_diff_pfx line
    (hhne 'd' (by decide) (by decide) (by decide) (by decide))
  have hne : ¬(line = []) := by
    intro he
    rcases hh with hh | hh | hh | hh <;> rw [he] at hh <;> simp at hh
  simp only [stepLine]
  rw [if_neg h1, if_neg h2, if_neg (fun hn => hn htl), if_neg h3, if_neg h4, ht,
    if_neg hc, if_neg hd, if_neg hf, if_neg (by rw [hffh]; simp), if_neg hne,
    if_pos hh]
  rfl

theorem stepLine_empty (dat : Str) (s : ParseState) (off : Int)
    (htl : s.topLevelCommentStart = 0) (hffh : s.foundFirstHunk = true) :
    stepLine dat s [] off = .ok (adv s off) := by
  have h1 : ([] : Str) ≠ topLevelStartMarker := by decide
  have h2 : ([] : Str) ≠ topLevelEndMarker := by decide
  have h3 : ([] : Str) ≠ inlineStartMarker := by decide
  have h4 : ([] : Str) ≠ inlineEndMarker := by decide
  have ht : threadDigits [] = none := rfl
  simp only [stepLine]
  rw [if_neg h1, if_neg h2, if_neg (fun hn => hn htl), if_neg h3, if_neg h4, ht,
    if_neg (by decide), if_neg (by decide), if_neg (by decide),
    if_neg (by rw [hffh]; simp), if_pos trivial]
  rfl

theorem stepLine_star (dat : Str) (s : ParseState) (line : Str) (off : Int)
    (htl : s.topLevelCommentStart = 0)
    (hh : line.head? = some '*' ∨ line.head? = some '\t')
    (h3 : line ≠ inlineStartMarker) (h4 : line ≠ inlineEndMarker)
    (ht : threadDigits line = none) :
    stepLine dat s line off = .ok (adv s off) := by
  have hhne : ∀ c : Char, c ≠ '*' → c ≠ '\t' → line.head? ≠ some c := by
    intro c hc1 hc2 he
    rcases hh with hh | hh <;> rw [hh] at he
    · exact hc1 (Option.some.inj he).symm
    · exact hc2 (Option.some.inj he).symm
  have h1 : line ≠ topLevelStartMarker :=
    ne_of_heads line _ '#' tlStart_head (hhne '#' (by decide) (by decide))
  have h2 : line ≠ topLevelEndMarker :=
    ne_of_heads line _ '#' tlEnd_head (hhne '#' (by decide) (by decide))
  have hc := not_commit_pfx line (hhne 'c' (by decide) (by decide))
  have hd := not_diff_pfx line (hhne 'd' (by decide) (by decide))
  have hf := not_file_pfx line (hhne '+' (by decide) (by decide))
  have hk := not_hunk_pfx line (hhne '@' (by decide) (by decide))
  have hne : ¬(line = []) := by
    intro he
    rcases hh with hh | hh <;> rw [he] at hh <;> simp at hh
  have hnb : ¬(line.head? = some '+' ∨ line.head? = some '-' ∨
      line.head? = some ' ' ∨ line.head? = some '@') := by
    intro hb
    rcases hb with hb | hb | hb | hb
    · exact hhne '+' (by decide) (by decide) hb
    · exact hhne '-' (by decide) (by decide) hb
    · exact hhne ' ' (by decide) (by decide) hb
    · exact hhne '@' (by decide) (by decide) hb
  simp only [stepLine]
  rcases Bool.eq_false_or_eq_true s.foundFirstHunk with hffh | hffh
  · rw [if_neg h1, if_neg h2, if_neg (fun hn => hn htl), if_neg h3, if_neg h4,
      ht, if_neg hc, if_neg hd, if_neg hf, if_neg (by rw [hffh]; simp),
      if_neg hne, if_neg hnb, if_pos hh]
    rfl
  · rw [if_neg h1, if_neg h2, if_neg (fun hn => hn htl), if_neg h3, if_neg h4,
      ht, if_neg hc, if_neg hd, if_neg hf, if_pos (by rw [hffh]; rfl),
      if_neg hk]
    rfl

theorem isFreeTextLine_spec (l : Str) (h : isFreeTextLine l = true) :
    l ≠ [] ∧
    (∀ c ∈ (['+', '-', ' ', '@', '*', '\t'] : List Char), l.head? ≠ some c) ∧
    ¬(("commit ".toList).isPrefixOf l = true) ∧
    ¬(("diff --git ".toList).isPrefixOf l = true) ∧
    l ≠ topLevelStartMarker ∧ l ≠ topLevelEndMarker ∧ '\n' ∉ l := by
  unfold isFreeTextLine at h
  simp only [Bool.and_eq_true, Bool.or_eq_true, Bool.not_eq_true',
    decide_eq_true_eq, Bool.or_eq_false_iff, decide_eq_false_iff_not] at h
  obtain ⟨⟨⟨⟨⟨⟨hne, hheads⟩, hcp⟩, hdp⟩, hm1⟩, hm2⟩, hnl⟩ := h
  obtain ⟨⟨⟨⟨⟨hp, hm⟩, hs⟩, ha⟩, hst⟩, htb⟩ := hheads
  refine ⟨by simpa using hne, ?_, by rw [hcp]; simp, by rw [hdp]; simp,
    hm1, hm2, by simpa using hnl⟩
  intro c hc
  fin_cases hc <;> assumption

theorem stepLine_free_common (dat : Str) (s : ParseState) (line : Str)
    (off : Int) (htl : s.topLevelCommentStart = 0)
    (hffh : s.foundFirstHunk = true) (hl : isFreeTextLine line = true) :
    stepLine dat s line off =
      .ok { adv s off with
              commentStart :=
                if s.commentStart = -1 then off - (line.length : Int) - 1
                else s.commentStart,
              comments :=
                updateLast
                  (fun c => { c with
                    body := some (sliceI dat
                      (if s.commentStart = -1 then off - (line.length : Int) - 1
                       else s.commentStart) (off - 1)) })
                  (if s.commentStart = -1 then
                    s.comments ++ [makeDraftReviewComment s.file s.num]
                   else s.comments) } := by
  obtain ⟨hne, hheads, hcp, hdp, hm1, hm2, _⟩ := isFreeTextLine_spec line hl
  have h3 : line ≠ inlineStartMarker :=
    ne_of_heads line _ '*' inlineStart_head (hheads '*' (by decide))
  have h4 : line ≠ inlineEndMarker :=
    ne_of_heads line _ '*' inlineEnd_head (hheads '*' (by decide))
  have ht : threadDigits line = none :=
    threadDigits_none_of_head line (hheads '*' (by decide))
  have hf := not_file_pfx line (hheads '+' (by decide))
  have hnb : ¬(line.head? = some '+' ∨ line.head? = some '-' ∨
      line.head? = some ' ' ∨ line.head? = some '@') := by
    intro hb
    rcases hb with hb | hb | hb | hb
    · exact hheads '+' (by decide) hb
    · exact hheads '-' (by decide) hb
    · exact hheads ' ' (by decide) hb
    · exact hheads '@' (by decide) hb
  have hns : ¬(line.head? = some '*' ∨ line.head? = some '\t') := by
    intro hb
    rcases hb with hb | hb
    · exact hheads '*' (by decide) hb
    · exact hheads '\t' (by decide) hb
  simp only [stepLine]
  rw [if_neg hm1, if_neg hm2, if_neg (fun hn => hn htl), if_neg h3, if_neg h4,
    ht, if_neg hcp, if_neg hdp, if_neg hf, if_neg (by rw [hffh]; simp),
    if_neg hne, if_neg hnb, if_neg hns]
  rfl

theorem stepLine_freeNew (dat : Str) (s : ParseState) (line : Str) (off : Int)
    (htl : s.topLevelCommentStart = 0) (hffh : s.foundFirstHunk = true)
    (hcs : s.commentStart = -1) (hl : isFreeTextLine line = true) :
    stepLine dat s line off =
      .ok { adv s off with
              commentStart := off - (line.length : Int) - 1,
              comments := s.comments ++
                [{ path := s.file, position := s.num,
                   body := some (sliceI dat (off - (line.length : Int) - 1)
                     (off - 1)) }] } := by
  rw [stepLine_free_common dat s line off htl hffh hl]
  simp only [if_pos hcs]
  rw [updateLast_append_singleton]
  rfl

theorem stepLine_freeCont (dat : Str) (s : ParseState) (line : Str) (off : Int)
    (htl : s.topLevelCommentStart = 0) (hffh : s.foundFirstHunk = true)
    (hcs : s.commentStart ≠ -1) (hl : isFreeTextLine line = true) :
    stepLine dat s line off =
      .ok { adv s off with
              commentStart := s.commentStart,
              comments :=
                updateLast
                  (fun c => { c with
                    body := some (sliceI dat s.commentStart (off - 1)) })
                  s.comments } := by
  rw [stepLine_free_common dat s line off htl hffh hl]
  simp only [if_neg hcs]

theorem stepLine_off (dat : Str) (s : ParseState) (line : Str) (off : Int)
    (s' : ParseState) (h : stepLine dat s line off = .ok s') : s'.off = off := by
  simp only [stepLine] at h
  by_cases c1 : line = topLevelStartMarker
  · rw [if_pos c1] at h; injection h with he; rw [← he]
  rw [if_neg c1] at h
  by_cases c2 : line = topLevelEndMarker
  · rw [if_pos c2] at h
    by_cases c2b : off - (line.length : Int) - 2 > s.topLevelCommentStart
    · rw [if_pos c2b] at h; injection h with he; rw [← he]
    · rw [if_neg c2b] at h; injection h with he; rw [← he]
  rw [if_neg c2] at h
  by_cases c3 : s.topLevelCommentStart ≠ 0
  · rw [if_pos c3] at h; injection h with he; rw [← he]
  rw [if_neg c3] at h
  by_cases c4 : line = inlineStartMarker
  · rw [if_pos c4] at h; injection h with he; rw [← he]
  rw [if_neg c4] at h
  by_cases c5 : line = inlineEndMarker
  · rw [if_pos c5] at h; injection h with he; rw [← he]
  rw [if_neg c5] at h
  cases ht : threadDigits line with
  | some ds =>
    rw [ht] at h
    simp only at h
    by_cases c6 : atoiOk ds = true
    · rw [if_pos c6] at h; injection h with he; rw [← he]
    · rw [if_neg c6] at h; cases h
  | none =>
    rw [ht] at h
    simp only at h
    by_cases c7 : ("commit ".toList).isPrefixOf line = true
    · rw [if_pos c7] at h; injection h with he; rw [← he]
    rw [if_neg c7] at h
    by_cases c8 : ("diff --git ".toList).isPrefixOf line = true
    · rw [if_pos c8] at h; injection h with he; rw [← he]
    rw [if_neg c8] at h
    by_cases c9 : ("+++ b/".toList).isPrefixOf line = true
    · rw [if_pos c9] at h; injection h with he; rw [← he]
    rw [if_neg c9] at h
    by_cases c10 : (!s.foundFirstHunk) = true
    · rw [if_pos c10] at h
      by_cases c11 : ("@@".toList).isPrefixOf line = true
      · rw [if_pos c11] at h; injection h with he; rw [← he]
      · rw [if_neg c11] at h; injection h with he; rw [← he]
    rw [if_neg c10] at h
    by_cases c12 : line = []
    · rw [if_pos c12] at h; injection h with he; rw [← he]
    rw [if_neg c12] at h
    by_cases c13 : (line.head? = some '+' ∨ line.head? = some '-' ∨
        line.head? = some ' ' ∨ line.head? = some '@')
    · rw [if_pos c13] at h; injection h with he; rw [← he]
    rw [if_neg c13] at h
    by_cases c14 : (line.head? = some '*' ∨ line.head? = some '\t')
    · rw [if_pos c14] at h; injection h with he; rw [← he]
    rw [if_neg c14] at h
    injection h with he; rw [← he]

theorem runLines_off (dat : Str) (s : ParseState) (ls : List Str)
    (h : ∀ l ∈ ls, '\n' ∉ l) (s' : ParseState)
    (hr : runLines dat s ls = .ok s') :
    s'.off = s.off + ((linesJoin ls).length : Int) := by
  induction ls generalizing s with
  | nil =>
    simp only [runLines_nil] at hr
    injection hr with he
    rw [← he]
    simp [linesJoin]
  | cons l ls ih =>
    rw [runLines_cons dat s l ls (h l (List.mem_cons_self l ls))] at hr
    cases hstep : stepLine dat s l (s.off + (l.length : Int) + 1) with
    | error e => rw [hstep] at hr; cases hr
    | ok s1 =>
      rw [hstep] at hr
      simp only at hr
      have h2 := ih s1 (fun x hx => h x (List.mem_cons_of_mem l hx)) hr
      rw [h2, stepLine_off dat s l _ s1 hstep]
      simp only [linesJoin, List.map_cons, List.flatten_cons, List.length_append,
        List.length_cons, List.length_nil]
      push_cast
      ring

theorem sliceI_at (pre x rest : Str) :
    sliceI (pre ++ (x ++ rest)) (pre.length : Int)
      ((pre.length : Int) + (x.length : Int)) = x := by
  unfold sliceI
  have h1 : ((pre.length : Int)).toNat = pre.length := Int.toNat_natCast _
  have h2 : (((pre.length : Int) + (x.length : Int)) - (pre.length : Int)).toNat
      = x.length := by
    have : ((pre.length : Int) + (x.length : Int)) - (pre.length : Int)
        = (x.length : Int) := by ring
    rw [this, Int.toNat_natCast]
  rw [h1, h2, List.drop_left, List.take_left]

theorem linesJoin_append (a b : List Str) :
    linesJoin (a ++ b) = linesJoin a ++ linesJoin b := by
  simp [linesJoin]

theorem runLines_diffBodies (dat : Str) (s : ParseState) (ds : List Str)
    (htl : s.topLevelCommentStart = 0) (hffh : s.foundFirstHunk = true)
    (hds : ∀ d ∈ ds, isDiffBodyLine d = true) :
    ∃ lcs2 : Int, runLines dat s ds =
      .ok { s with num := s.num + (ds.length : Int),
                   off := s.off + ((linesJoin ds).length : Int),
                   commentStart := if ds.isEmpty then s.commentStart else -1,
                   lastCommentStart := lcs2 } := by
  induction ds generalizing s with
  | nil =>
    refine ⟨s.lastCommentStart, ?_⟩
    simp only [runLines_nil]
    congr 1
    cases s
    simp [linesJoin]
  | cons d ds ih =>
    have hd := hds d (List.mem_cons_self d ds)
    have hnl : '\n' ∉ d := (isDiffBodyLine_spec d hd).2.2
    rw [runLines_cons dat s d ds hnl,
      stepLine_diffBody dat s d _ htl hffh hd]
    obtain ⟨lcs2, hrest⟩ := ih
      (s := { adv s (s.off + (d.length : Int) + 1) with num := s.num + 1 })
      (by simp [adv]; exact htl) (by simp [adv]; exact hffh)
      (fun x hx => hds x (List.mem_cons_of_mem d hx))
    refine ⟨lcs2, ?_⟩
    simp only
    rw [hrest]
    congr 1
    apply ParseState.ext <;> simp [adv, linesJoin] <;> push_cast <;> ring

theorem runFrags_empty_frag (dat : Str) (s : ParseState) :
    runFrags dat s [[]] = .ok s := rfl

theorem parseFile_runLines (ls : List Str) (h : ∀ l ∈ ls, '\n' ∉ l) :
    parseFile (linesJoin ls) =
      (runLines (linesJoin ls) initState ls).map (fun s =>
        { commitID := s.reviewCommitID, body := s.reviewBody,
          comments := s.comments }) := by
  have hs : splitAfterNL (linesJoin ls) =
      ls.map (fun l => l ++ ['\n']) ++ [[]] := by
    have h2 := splitAfterNL_linesJoin ls [] h
    simpa [splitAfterNL] using h2
  have hne : ([] : Str) ∉ ls.map (fun l => l ++ ['\n']) := by simp
  unfold parseFile
  rw [hs, runFrags_append _ _ _ _ hne]
  unfold runLines
  cases runFrags (linesJoin ls) initState (ls.map fun l => l ++ ['\n']) with
  | error e => rfl
  | ok s' => rfl

theorem runLines_append (dat : Str) (s : ParseState) (xs ys : List Str) :
    runLines dat s (xs ++ ys) =
      match runLines dat s xs with
      | .error e => .error e
      | .ok s' => runLines dat s' ys := by
  unfold runLines
  rw [List.map_append, runFrags_append _ _ _ _ (by simp)]

theorem map_runLines_diffBodies {dat : Str} {s : ParseState} {ds : List Str}
    {R : PullRequestReviewRequest}
    (htl : s.topLevelCommentStart = 0) (hffh : s.foundFirstHunk = true)
    (hds : ∀ d ∈ ds, isDiffBodyLine d = true)
    (hR : R = { commitID := s.reviewCommitID, body := s.reviewBody,
                comments := s.comments }) :
    Except.map
      (fun x =>
        ({ commitID := x.reviewCommitID, body := x.reviewBody,
           comments := x.comments } : PullRequestReviewRequest))
      (runLines dat s ds) = .ok R := by
  obtain ⟨lcs2, h⟩ := runLines_diffBodies dat s ds htl hffh hds
  rw [h, hR]
  rfl

theorem noNL_of_all (preLines ds post : List Str) (t : Str)
    (hpre : ∀ l ∈ preLines, '\n' ∉ l)
    (hds : ∀ d ∈ ds, isDiffBodyLine d = true)
    (hpost : ∀ d ∈ post, isDiffBodyLine d = true)
    (ht : isFreeTextLine t = true) :
    ∀ l ∈ preLines ++ (ds ++ (t :: post)), '\n' ∉ l := by
  intro l hl
  rcases List.mem_append.mp hl with hl | hl
  · exact hpre l hl
  rcases List.mem_append.mp hl with hl | hl
  · exact (isDiffBodyLine_spec l (hds l hl)).2.2
  rcases List.mem_cons.mp hl with rfl | hl
  · exact (isFreeTextLine_spec l ht).2.2.2.2.2.2
  · exact (isDiffBodyLine_spec l (hpost l hl)).2.2

/-- C1: after the first hunk header of a file (position counter at 0), a
free-text line typed after the `k`-th diff-body line is anchored at
position `k` with the line itself as body; trailing diff-body lines only
advance the position. -/
theorem c1_new_comment_anchoring
    (preLines ds post : List Str) (t : Str) (s : ParseState)
    (hpre : ∀ l ∈ preLines, '\n' ∉ l)
    (hds : ∀ d ∈ ds, isDiffBodyLine d = true)
    (hpost : ∀ d ∈ post, isDiffBodyLine d = true)
    (ht : isFreeTextLine t = true)
    (hrun : runLines (linesJoin (preLines ++ (ds ++ (t :: post)))) initState
      preLines = .ok s)
    (htl : s.topLevelCommentStart = 0) (hffh : s.foundFirstHunk = true)
    (hnum : s.num = 0) (hcs : s.commentStart = -1) :
    parseFile (linesJoin (preLines ++ (ds ++ (t :: post)))) =
      .ok { commitID := s.reviewCommitID, body := s.reviewBody,
            comments := s.comments ++
              [{ path := s.file, position := (ds.length : Int),
                 body := some t }] } := by
  have htnl : '\n' ∉ t := (isFreeTextLine_spec t ht).2.2.2.2.2.2
  have hAll := noNL_of_all preLines ds post t hpre hds hpost ht
  have hoff_s : s.off = ((linesJoin preLines).length : Int) := by
    have h0 := runLines_off _ initState preLines hpre s hrun
    simpa [initState] using h0
  rw [parseFile_runLines _ hAll]
  rw [runLines_append _ _ preLines (ds ++ t :: post), hrun]
  simp only
  rw [runLines_append _ _ ds (t :: post)]
  obtain ⟨lcs2, h2⟩ := runLines_diffBodies _ s ds htl hffh hds
  rw [h2]
  simp only
  rw [runLines_cons _ _ t post htnl]
  rw [stepLine_freeNew _ _ t _ (by exact htl) (by exact hffh)
    (by
      show (if ds.isEmpty then s.commentStart else -1) = -1
      split
      · exact hcs
      · rfl) ht]
  simp only
  have e1 : s.off + ((linesJoin ds).length : Int) + (t.length : Int) + 1 -
      (t.length : Int) - 1 = ((linesJoin preLines ++ linesJoin ds).length : Int) := by
    rw [hoff_s]
    push_cast [List.length_append]
    ring
  have e2 : s.off + ((linesJoin ds).length : Int) + (t.length : Int) + 1 - 1 =
      ((linesJoin preLines ++ linesJoin ds).length : Int) + (t.length : Int) := by
    rw [hoff_s]
    push_cast [List.length_append]
    ring
  have hdat : linesJoin (preLines ++ (ds ++ (t :: post))) =
      (linesJoin preLines ++ linesJoin ds) ++ (t ++ ('\n' :: linesJoin post)) := by
    simp [linesJoin]
  have hsl : sliceI (linesJoin (preLines ++ (ds ++ (t :: post))))
      ((linesJoin preLines ++ linesJoin ds).length : Int)
      (((linesJoin preLines ++ linesJoin ds).length : Int) + (t.length : Int)) = t := by
    rw [hdat]
    exact sliceI_at (linesJoin preLines ++ linesJoin ds) t ('\n' :: linesJoin post)
  rw [e1, e2, hsl]
  refine map_runLines_diffBodies ?_ ?_ hpost ?_
  · exact htl
  · exact hffh
  · simp only [PullRequestReviewRequest.mk.injEq]
    refine ⟨rfl, rfl, ?_⟩
    simp [adv, hnum]

/-- C3: two consecutive free-text lines after a diff-body position produce a
single DraftComment whose body is the two lines joined by a newline. -/
theorem c3_multiline_accumulation
    (preLines : List Str) (t1 t2 : Str) (s : ParseState)
    (hpre : ∀ l ∈ preLines, '\n' ∉ l)
    (ht1 : isFreeTextLine t1 = true) (ht2 : isFreeTextLine t2 = true)
    (hrun : runLines (linesJoin (preLines ++ [t1, t2])) initState preLines =
      .ok s)
    (htl : s.topLevelCommentStart = 0) (hffh : s.foundFirstHunk = true)
    (hcs : s.commentStart = -1) :
    parseFile (linesJoin (preLines ++ [t1, t2])) =
      .ok { commitID := s.reviewCommitID, body := s.reviewBody,
            comments := s.comments ++
              [{ path := s.file, position := s.num,
                 body := some (t1 ++ '\n' :: t2) }] } := by
  have ht1nl : '\n' ∉ t1 := (isFreeTextLine_spec t1 ht1).2.2.2.2.2.2
  have ht2nl : '\n' ∉ t2 := (isFreeTextLine_spec t2 ht2).2.2.2.2.2.2
  have hAll : ∀ l ∈ preLines ++ [t1, t2], '\n' ∉ l := by
    intro l hl
    rcases List.mem_append.mp hl with hl | hl
    · exact hpre l hl
    · rcases List.mem_cons.mp hl with rfl | hl
      · exact ht1nl
      rcases List.mem_cons.mp hl with rfl | hl
      · exact ht2nl
      · simp at hl
  have hoff_s : s.off = ((linesJoin preLines).length : Int) := by
    have h0 := runLines_off _ initState preLines hpre s hrun
    simpa [initState] using h0
  rw [parseFile_runLines _ hAll]
  rw [runLines_append _ _ preLines [t1, t2], hrun]
  simp only
  rw [runLines_cons _ _ t1 [t2] ht1nl]
  rw [stepLine_freeNew _ _ t1 _ htl hffh hcs ht1]
  simp only
  rw [runLines_cons _ _ t2 [] ht2nl]
  rw [stepLine_freeCont _ _ t2 _ (by exact htl) (by exact hffh)
    (by
      show s.off + (t1.length : Int) + 1 - (t1.length : Int) - 1 ≠ -1
      rw [hoff_s]
      have : (0 : Int) ≤ ((linesJoin preLines).length : Int) := by positivity
      omega) ht2]
  simp only [runLines_nil, adv]
  have e1 : s.off + (t1.length : Int) + 1 - (t1.length : Int) - 1 =
      ((linesJoin preLines).length : Int) := by rw [hoff_s]; ring
  have e2 : s.off + (t1.length : Int) + 1 + (t2.length : Int) + 1 - 1 =
      ((linesJoin preLines).length : Int) + ((t1 ++ '\n' :: t2).length : Int) := by
    rw [hoff_s]
    push_cast [List.length_append, List.length_cons]
    ring
  have hdat : linesJoin (preLines ++ [t1, t2]) =
      linesJoin preLines ++ ((t1 ++ '\n' :: t2) ++ ['\n']) := by
    simp [linesJoin]
  have hsl : sliceI (linesJoin (preLines ++ [t1, t2]))
      ((linesJoin preLines).length : Int)
      (((linesJoin preLines).length : Int) + ((t1 ++ '\n' :: t2).length : Int)) =
      t1 ++ '\n' :: t2 := by
    rw [hdat]
    exact sliceI_at (linesJoin preLines) (t1 ++ '\n' :: t2) ['\n']
  rw [e1, e2, hsl]
  simp [Except.map, updateLast_append_singleton]

/-- C9: a blank line between two free-text lines closes the first comment,
so two separate DraftComments are produced at the same position, and the
blank line neither advances the position nor appears in either body. -/
theorem c9_blank_line_splits
    (preLines : List Str) (t1 t2 : Str) (s : ParseState)
    (hpre : ∀ l ∈ preLines, '\n' ∉ l)
    (ht1 : isFreeTextLine t1 = true) (ht2 : isFreeTextLine t2 = true)
    (hrun : runLines (linesJoin (preLines ++ [t1, [], t2])) initState
      preLines = .ok s)
    (htl : s.topLevelCommentStart = 0) (hffh : s.foundFirstHunk = true)
    (hcs : s.commentStart = -1) :
    parseFile (linesJoin (preLines ++ [t1, [], t2])) =
      .ok { commitID := s.reviewCommitID, body := s.reviewBody,
            comments := s.comments ++
              [{ path := s.file, position := s.num, body := some t1 },
               { path := s.file, position := s.num, body := some t2 }] } := by
  have ht1nl : '\n' ∉ t1 := (isFreeTextLine_spec t1 ht1).2.2.2.2.2.2
  have ht2nl : '\n' ∉ t2 := (isFreeTextLine_spec t2 ht2).2.2.2.2.2.2
  have hAll : ∀ l ∈ preLines ++ [t1, [], t2], '\n' ∉ l := by
    intro l hl
    rcases List.mem_append.mp hl with hl | hl
    · exact hpre l hl
    · rcases List.mem_cons.mp hl with rfl | hl
      · exact ht1nl
      rcases List.mem_cons.mp hl with rfl | hl
      · simp
      rcases List.mem_cons.mp hl with rfl | hl
      · exact ht2nl
      · simp at hl
  have hoff_s : s.off = ((linesJoin preLines).length : Int) := by
    have h0 := runLines_off _ initState preLines hpre s hrun
    simpa [initState] using h0
  rw [parseFile_runLines _ hAll]
  rw [runLines_append _ _ preLines [t1, [], t2], hrun]
  simp only
  rw [runLines_cons _ _ t1 [[], t2] ht1nl]
  rw [stepLine_freeNew _ _ t1 _ htl hffh hcs ht1]
  simp only
  rw [runLines_cons _ _ [] [t2] (by simp)]
  rw [stepLine_empty _ _ _ (by exact htl) (by exact hffh)]
  simp only
  rw [runLines_cons _ _ t2 [] ht2nl]
  rw [stepLine_freeNew _ _ t2 _ (by exact htl) (by exact hffh) (by rfl) ht2]
  simp only [runLines_nil, adv]
  have e1 : s.off + (t1.length : Int) + 1 - (t1.length : Int) - 1 =
      ((linesJoin preLines).length : Int) := by rw [hoff_s]; ring
  have e2 : s.off + (t1.length : Int) + 1 - 1 =
      ((linesJoin preLines).length : Int) + (t1.length : Int) := by
    rw [hoff_s]; ring
  have hsl1 : sliceI (linesJoin (preLines ++ [t1, [], t2]))
      ((linesJoin preLines).length : Int)
      (((linesJoin preLines).length : Int) + (t1.length : Int)) = t1 := by
    rw [show linesJoin (preLines ++ [t1, [], t2]) =
      linesJoin preLines ++ (t1 ++ ('\n' :: '\n' :: t2 ++ ['\n'])) by
        simp [linesJoin]]
    exact sliceI_at (linesJoin preLines) t1 ('\n' :: '\n' :: t2 ++ ['\n'])
  have e3 : s.off + (t1.length : Int) + 1 + (([] : Str).length : Int) + 1 +
      (t2.length : Int) + 1 - (t2.length : Int) - 1 =
      ((linesJoin preLines ++ t1 ++ ['\n', '\n']).length : Int) := by
    rw [hoff_s]
    push_cast [List.length_append]
    simp
    ring
  have e4 : s.off + (t1.length : Int) + 1 + (([] : Str).length : Int) + 1 +
      (t2.length : Int) + 1 - 1 =
      ((linesJoin preLines ++ t1 ++ ['\n', '\n']).length : Int) +
        (t2.length : Int) := by
    rw [hoff_s]
    push_cast [List.length_append]
    simp
    ring
  have hsl2 : sliceI (linesJoin (preLines ++ [t1, [], t2]))
      ((linesJoin preLines ++ t1 ++ ['\n', '\n']).length : Int)
      (((linesJoin preLines ++ t1 ++ ['\n', '\n']).length : Int) +
        (t2.length : Int)) = t2 := by
    rw [show linesJoin (preLines ++ [t1, [], t2]) =
      (linesJoin preLines ++ t1 ++ ['\n', '\n']) ++ (t2 ++ ['\n']) by
        simp [linesJoin]]
    exact sliceI_at (linesJoin preLines ++ t1 ++ ['\n', '\n']) t2 ['\n']
  rw [e1, e2, hsl1, e3, e4, hsl2]
  simp [Except.map]

/-- C10: a free-text line immediately after a file's first hunk header is
anchored at position 0, before any diff-body line has advanced the counter. -/
theorem c10_position_zero
    (preLines : List Str) (hunkLine t : Str) (s : ParseState)
    (hpre : ∀ l ∈ preLines, '\n' ∉ l)
    (hhunk : ("@@".toList).isPrefixOf hunkLine = true)
    (hhnl : '\n' ∉ hunkLine) (ht : isFreeTextLine t = true)
    (hrun : runLines (linesJoin (preLines ++ [hunkLine, t])) initState
      preLines = .ok s)
    (htl : s.topLevelCommentStart = 0) (hffh : s.foundFirstHunk = false) :
    parseFile (linesJoin (preLines ++ [hunkLine, t])) =
      .ok { commitID := s.reviewCommitID, body := s.reviewBody,
            comments := s.comments ++
              [{ path := s.file, position := 0, body := some t }] } := by
  have htnl : '\n' ∉ t := (isFreeTextLine_spec t ht).2.2.2.2.2.2
  have hAll : ∀ l ∈ preLines ++ [hunkLine, t], '\n' ∉ l := by
    intro l hl
    rcases List.mem_append.mp hl with hl | hl
    · exact hpre l hl
    · rcases List.mem_cons.mp hl with rfl | hl
      · exact hhnl
      rcases List.mem_cons.mp hl with rfl | hl
      · exact htnl
      · simp at hl
  have hoff_s : s.off = ((linesJoin preLines).length : Int) := by
    have h0 := runLines_off _ initState preLines hpre s hrun
    simpa [initState] using h0
  rw [parseFile_runLines _ hAll]
  rw [runLines_append _ _ preLines [hunkLine, t], hrun]
  simp only
  rw [runLines_cons _ _ hunkLine [t] hhnl]
  rw [stepLine_hunkFirst _ _ hunkLine _ htl hffh hhunk]
  simp only
  rw [runLines_cons _ _ t [] htnl]
  rw [stepLine_freeNew _ _ t _ (by exact htl) (by rfl) (by rfl) ht]
  simp only [runLines_nil, adv]
  have e1 : s.off + (hunkLine.length : Int) + 1 + (t.length : Int) + 1 -
      (t.length : Int) - 1 =
      ((linesJoin preLines ++ hunkLine ++ ['\n']).length : Int) := by
    rw [hoff_s]
    push_cast [List.length_append, List.length_cons, List.length_nil]
    omega
  have e2 : s.off + (hunkLine.length : Int) + 1 + (t.length : Int) + 1 - 1 =
      ((linesJoin preLines ++ hunkLine ++ ['\n']).length : Int) +
        (t.length : Int) := by
    rw [hoff_s]
    push_cast [List.length_append, List.length_cons, List.length_nil]
    omega
  have hsl : sliceI (linesJoin (preLines ++ [hunkLine, t]))
      ((linesJoin preLines ++ hunkLine ++ ['\n']).length : Int)
      (((linesJoin preLines ++ hunkLine ++ ['\n']).length : Int) +
        (t.length : Int)) = t := by
    rw [show linesJoin (preLines ++ [hunkLine, t]) =
      (linesJoin preLines ++ hunkLine ++ ['\n']) ++ (t ++ ['\n']) by
        simp [linesJoin]]
    exact sliceI_at (linesJoin preLines ++ hunkLine ++ ['\n']) t ['\n']
  rw [e1, e2, hsl]
  simp [Except.map]

/-- Witness for C1: the spec's end-to-end scenario — file `a.txt`, hunk
`@@ -1,2 +1,3 @@`, lines ` foo`, `+bar`, ` baz`, free text `nice` typed
after `+bar` — yields exactly DraftComment{a.txt, 2, nice}. -/
theorem c1_new_comment_anchoring_witness :
    parseFile ("commit c1\ndiff --git a/a.txt b/a.txt\n--- a/a.txt\n+++ b/a.txt\n@@ -1,2 +1,3 @@\n foo\n+bar\nnice\n baz\n".toList) =
      .ok { commitID := some ("c1".toList), body := none,
            comments := [{ path := "a.txt".toList, position := 2,
                           body := some ("nice".toList) }] } := by
  have h := c1_new_comment_anchoring
    ["commit c1".toList, "diff --git a/a.txt b/a.txt".toList,
     "--- a/a.txt".toList, "+++ b/a.txt".toList, "@@ -1,2 +1,3 @@".toList]
    [" foo".toList, "+bar".toList] [" baz".toList] ("nice".toList)
    { commit := "c1".toList, file := "a.txt".toList, num := 0,
      foundFirstHunk := true, commentStart := -1, lastCommentStart := -1,
      topLevelCommentStart := 0, lastInlineCommentId := 0, reviewBody := none,
      reviewCommitID := some ("c1".toList), comments := [], off := 77 }
    (by decide) (by decide) (by decide) (by decide) (by rfl)
    rfl rfl rfl rfl
  exact h

/-- Witness for C3: two consecutive free-text lines after a context line
merge into one comment with the bodies joined by a newline. -/
theorem c3_multiline_accumulation_witness :
    parseFile ("commit c\ndiff --git a/f b/f\n+++ b/f\n@@ h\n x\none more\nand more\n".toList) =
      .ok { commitID := some ("c".toList), body := none,
            comments := [{ path := "f".toList, position := 1,
                           body := some ("one more\nand more".toList) }] } := by
  have h := c3_multiline_accumulation
    ["commit c".toList, "diff --git a/f b/f".toList, "+++ b/f".toList,
     "@@ h".toList, " x".toList]
    ("one more".toList) ("and more".toList)
    { commit := "c".toList, file := "f".toList, num := 1,
      foundFirstHunk := true, commentStart := -1, lastCommentStart := -1,
      topLevelCommentStart := 0, lastInlineCommentId := 0, reviewBody := none,
      reviewCommitID := some ("c".toList), comments := [], off := 44 }
    (by decide) (by decide) (by decide) (by rfl) rfl rfl rfl
  exact h

/-- Witness for C9: a blank line between two free-text lines yields two
separate DraftComments at the same position. -/
theorem c9_blank_line_splits_witness :
    parseFile ("commit c\ndiff --git a/f b/f\n+++ b/f\n@@ h\n x\nfirst\n\nsecond\n".toList) =
      .ok { commitID := some ("c".toList), body := none,
            comments := [{ path := "f".toList, position := 1,
                           body := some ("first".toList) },
                         { path := "f".toList, position := 1,
                           body := some ("second".toList) }] } := by
  have h := c9_blank_line_splits
    ["commit c".toList, "diff --git a/f b/f".toList, "+++ b/f".toList,
     "@@ h".toList, " x".toList]
    ("first".toList) ("second".toList)
    { commit := "c".toList, file := "f".toList, num := 1,
      foundFirstHunk := true, commentStart := -1, lastCommentStart := -1,
      topLevelCommentStart := 0, lastInlineCommentId := 0, reviewBody := none,
      reviewCommitID := some ("c".toList), comments := [], off := 44 }
    (by decide) (by decide) (by decide) (by rfl) rfl rfl rfl
  exact h

/-- Witness for C10: a free-text line immediately after the first hunk
header is anchored at position 0. -/
theorem c10_position_zero_witness :
    parseFile ("commit c\ndiff --git a/f b/f\n+++ b/f\n@@ -1 +1 @@\nzero\n".toList) =
      .ok { commitID := some ("c".toList), body := none,
            comments := [{ path := "f".toList, position := 0,
                           body := some ("zero".toList) }] } := by
  have h := c10_position_zero
    ["commit c".toList, "diff --git a/f b/f".toList, "+++ b/f".toList]
    ("@@ -1 +1 @@".toList) ("zero".toList)
    { commit := "c".toList, file := "f".toList, num := 0,
      foundFirstHunk := false, commentStart := -1, lastCommentStart := -1,
      topLevelCommentStart := 0, lastInlineCommentId := 0, reviewBody := none,
      reviewCommitID := some ("c".toList), comments := [], off := 36 }
    (by decide) (by decide) (by decide) (by decide) (by rfl) rfl rfl
  exact h

theorem splitNL_ne_nil (s : Str) : splitNL s ≠ [] := by
  unfold splitNL
  match s with
  | [] => simp
  | c :: rest =>
    by_cases h : c = '\n'
    · simp [h]
    · simp only [if_neg h]
      cases splitNL rest <;> simp

theorem splitNL_noNL (a : Str) (h : '\n' ∉ a) : splitNL a = [a] := by
  induction a with
  | nil => rfl
  | cons c cs ih =>
    have hc : c ≠ '\n' := fun he => h (he ▸ List.mem_cons_self c cs)
    have hcs : '\n' ∉ cs := fun hm => h (List.mem_cons_of_mem c hm)
    simp [splitNL, hc, ih hcs]

theorem splitNL_sep (a b : Str) :
    splitNL (a ++ '\n' :: b) = splitNL a ++ splitNL b := by
  induction a with
  | nil => simp [splitNL]
  | cons c cs ih =>
    by_cases hc : c = '\n'
    · subst hc
      simp [splitNL, ih]
    · cases hcs : splitNL cs with
      | nil => exact absurd hcs (splitNL_ne_nil cs)
      | cons r rs => simp [splitNL, hc, ih, hcs]

theorem splitNL_prepend (p x : Str) (hp : '\n' ∉ p) (r : Str) (rs : List Str)
    (hx : splitNL x = r :: rs) : splitNL (p ++ x) = (p ++ r) :: rs := by
  induction p with
  | nil => simpa using hx
  | cons c cs ih =>
    have hc : c ≠ '\n' := fun he => hp (he ▸ List.mem_cons_self c cs)
    have hcs : '\n' ∉ cs := fun hm => hp (List.mem_cons_of_mem c hm)
    simp [splitNL, hc, ih hcs]

theorem splitNL_mem_noNL (x : Str) : ∀ l ∈ splitNL x, '\n' ∉ l := by
  induction x with
  | nil =>
    intro l hl
    simp [splitNL] at hl
    simp [hl]
  | cons c cs ih =>
    intro l hl
    by_cases hc : c = '\n'
    · subst hc
      have he : splitNL ('\n' :: cs) = [] :: splitNL cs := by
        simp [splitNL]
      rw [he, List.mem_cons] at hl
      rcases hl with rfl | hl
      · simp
      · exact ih l hl
    · obtain ⟨r, rs, hcs⟩ : ∃ r rs, splitNL cs = r :: rs := by
        cases h2 : splitNL cs with
        | nil => exact absurd h2 (splitNL_ne_nil cs)
        | cons r rs => exact ⟨r, rs, rfl⟩
      simp only [splitNL, if_neg hc, hcs, List.mem_cons] at hl
      rcases hl with rfl | hl
      · intro hm
        rcases List.mem_cons.mp hm with he | hm2
        · exact hc he.symm
        · exact ih r (by rw [hcs]; exact List.mem_cons_self r rs) hm2
      · exact ih l (by rw [hcs]; exact List.mem_cons_of_mem r hl)

theorem isPrefixOf_append_self (p x : Str) : p.isPrefixOf (p ++ x) = true := by
  induction p with
  | nil => simp [List.isPrefixOf]
  | cons c cs ih => simpa [List.isPrefixOf] using ih

theorem breakIdx_pos (s : Str) : 1 ≤ breakIdx s := by
  unfold breakIdx
  cases lastSpaceIdx (s.take 70) <;> simp

theorem breakIdx_le (s : Str) : breakIdx s ≤ 70 := by
  unfold breakIdx
  cases h : lastSpaceIdx (s.take 70) with
  | none => simp
  | some j =>
    simp only
    unfold lastSpaceIdx at h
    cases h2 : (s.take 70).reverse.findIdx? (fun c => c = ' ') with
    | none => rw [h2] at h; simp at h
    | some k =>
      rw [h2] at h
      simp only [Option.some.injEq] at h
      subst h
      have hlen : (s.take 70).length ≤ 70 := by simp [List.length_take]
      omega

theorem breakLongFuel_segs (pfx : Str) (hp : '\n' ∉ pfx) :
    ∀ (fuel : Nat) (s : Str), '\n' ∉ s → s.length ≤ fuel + 70 →
    ∃ r rs, splitNL (breakLongFuel pfx fuel s) = r :: rs ∧ r.length ≤ 70 ∧
      ∀ seg ∈ rs, pfx.isPrefixOf seg = true ∧
        (seg.drop pfx.length).length ≤ 70 := by
  intro fuel
  induction fuel with
  | zero =>
    intro s hs hlen
    refine ⟨s, [], ?_, by simpa using hlen, by simp⟩
    simpa [breakLongFuel] using splitNL_noNL s hs
  | succ fuel ih =>
    intro s hs hlen
    by_cases h70 : 70 < s.length
    · have hi1 := breakIdx_pos s
      have hi2 := breakIdx_le s
      have hs' : '\n' ∉ s.drop (breakIdx s) :=
        fun hm => hs (List.mem_of_mem_drop hm)
      have hlen' : (s.drop (breakIdx s)).length ≤ fuel + 70 := by
        simp only [List.length_drop]
        omega
      obtain ⟨r, rs, hsp, hr, hrs⟩ := ih (s.drop (breakIdx s)) hs' hlen'
      have htake : '\n' ∉ s.take (breakIdx s) :=
        fun hm => hs (List.mem_of_mem_take hm)
      refine ⟨s.take (breakIdx s), (pfx ++ r) :: rs, ?_, ?_, ?_⟩
      · simp only [breakLongFuel, if_pos h70]
        rw [splitNL_sep, splitNL_noNL _ htake,
          splitNL_prepend pfx _ hp r rs hsp]
        rfl
      · simp only [List.length_take]
        omega
      · intro seg hseg
        rcases List.mem_cons.mp hseg with rfl | hseg
        · exact ⟨isPrefixOf_append_self pfx r, by simpa using hr⟩
        · exact hrs seg hseg
    · refine ⟨s, [], ?_, by omega, by simp⟩
      simp only [breakLongFuel, if_neg h70]
      exact splitNL_noNL s hs

theorem breakLong_segs (pfx : Str) (hp : '\n' ∉ pfx) (s : Str) (hs : '\n' ∉ s) :
    ∃ r rs, splitNL (breakLong pfx s) = r :: rs ∧ r.length ≤ 70 ∧
      ∀ seg ∈ rs, pfx.isPrefixOf seg = true ∧
        (seg.drop pfx.length).length ≤ 70 :=
  breakLongFuel_segs pfx hp s.length s hs (by omega)

theorem wrapLines_segs (pfx : Str) (hp : '\n' ∉ pfx) :
    ∀ lines : List Str, (∀ l ∈ lines, '\n' ∉ l) →
    ∃ r rs, splitNL (wrapLines pfx lines) = r :: rs ∧ r.length ≤ 70 ∧
      ∀ seg ∈ rs, pfx.isPrefixOf seg = true ∧
        (seg.drop pfx.length).length ≤ 70 := by
  intro lines
  induction lines with
  | nil =>
    intro _
    exact ⟨[], [], rfl, by simp, by simp⟩
  | cons l rest ih =>
    intro hno
    have hl : '\n' ∉ l := hno l (List.mem_cons_self l rest)
    cases rest with
    | nil =>
      obtain ⟨r, rs, hsp, hr, hrs⟩ := breakLong_segs pfx hp l hl
      exact ⟨r, rs, hsp, hr, hrs⟩
    | cons l2 rest2 =>
      obtain ⟨r2, rs2, hsp2, hr2, hrs2⟩ :=
        ih (fun x hx => hno x (List.mem_cons_of_mem l hx))
      obtain ⟨r1, rs1, hsp1, hr1, hrs1⟩ := breakLong_segs pfx hp l hl
      refine ⟨r1, rs1 ++ (pfx ++ r2) :: rs2, ?_, hr1, ?_⟩
      · show splitNL (breakLong pfx l ++
          '\n' :: (pfx ++ wrapLines pfx (l2 :: rest2))) = _
        rw [splitNL_sep, hsp1,
          splitNL_prepend pfx _ hp r2 rs2 hsp2]
        rfl
      · intro seg hseg
        rcases List.mem_append.mp hseg with hseg | hseg
        · exact hrs1 seg hseg
        · rcases List.mem_cons.mp hseg with rfl | hseg
          · exact ⟨isPrefixOf_append_self pfx r2, by simpa using hr2⟩
          · exact hrs2 seg hseg

/-- C8 (amended): `wrap` breaks on the last space (not any whitespace) at or
before column 70, so for a newline-free prefix every output segment is at
most 70 characters after removing the prefix, and every continuation
segment begins with the prefix. -/
theorem c8_wrap_segment_bounds (t pfx : Str) (hp : '\n' ∉ pfx) :
    (∀ h ∈ (splitNL (wrap t pfx)).take 1, h.length ≤ 70) ∧
    (∀ seg ∈ (splitNL (wrap t pfx)).tail,
      pfx.isPrefixOf seg = true ∧ (seg.drop pfx.length).length ≤ 70) := by
  obtain ⟨r, rs, hsp, hr, hrs⟩ :=
    wrapLines_segs pfx hp (splitNL (replaceCRLF t))
      (splitNL_mem_noNL (replaceCRLF t))
  unfold wrap
  rw [hsp]
  constructor
  · intro h hh
    simp only [List.take, List.mem_cons] at hh
    rcases hh with rfl | hh
    · exact hr
    · simp at hh
  · intro seg hseg
    exact hrs seg hseg

/-- C8 counterexample: the claim's rule breaks at the last whitespace, but
the code searches only for a space: on a 75-character line whose sole
whitespace is a tab at index 40, `wrap` hard-breaks at column 70 while the
claimed whitespace rule breaks at the tab. -/
theorem c8_whitespace_counterexample :
    wrap (List.replicate 40 'a' ++ '\t' :: List.replicate 34 'a') [] ≠
      wrapW (List.replicate 40 'a' ++ '\t' :: List.replicate 34 'a') [] := by
  decide

/-- Witness for the amended C8 at a concrete body and the `*`-tab prefix. -/
theorem c8_wrap_segment_bounds_witness :
    (∀ h ∈ (splitNL (wrap ("some comment body".toList) ("*\t".toList))).take 1,
      h.length ≤ 70) ∧
    (∀ seg ∈ (splitNL (wrap ("some comment body".toList) ("*\t".toList))).tail,
      ("*\t".toList).isPrefixOf seg = true ∧
      (seg.drop ("*\t".toList).length).length ≤ 70) :=
  c8_wrap_segment_bounds ("some comment body".toList) ("*\t".toList) (by decide)

theorem stepLine_noHunk_inv (dat : Str) (s : ParseState) (line : Str)
    (off : Int) (s' : ParseState) (hffh : s.foundFirstHunk = false)
    (hk : ¬(("@@".toList).isPrefixOf line = true))
    (h : stepLine dat s line off = .ok s') :
    s'.foundFirstHunk = false ∧ s'.num = s.num ∧ s'.comments = s.comments := by
  simp only [stepLine] at h
  by_cases c1 : line = topLevelStartMarker
  · rw [if_pos c1] at h; injection h with he; rw [← he]; exact ⟨hffh, rfl, rfl⟩
  rw [if_neg c1] at h
  by_cases c2 : line = topLevelEndMarker
  · rw [if_pos c2] at h
    by_cases c2b : off - (line.length : Int) - 2 > s.topLevelCommentStart
    · rw [if_pos c2b] at h; injection h with he; rw [← he]
      exact ⟨hffh, rfl, rfl⟩
    · rw [if_neg c2b] at h; injection h with he; rw [← he]
      exact ⟨hffh, rfl, rfl⟩
  rw [if_neg c2] at h
  by_cases c3 : s.topLevelCommentStart ≠ 0
  · rw [if_pos c3] at h; injection h with he; rw [← he]; exact ⟨hffh, rfl, rfl⟩
  rw [if_neg c3] at h
  by_cases c4 : line = inlineStartMarker
  · rw [if_pos c4] at h; injection h with he; rw [← he]; exact ⟨hffh, rfl, rfl⟩
  rw [if_neg c4] at h
  by_cases c5 : line = inlineEndMarker
  · rw [if_pos c5] at h; injection h with he; rw [← he]; exact ⟨hffh, rfl, rfl⟩
  rw [if_neg c5] at h
  cases ht : threadDigits line with
  | some ds =>
    rw [ht] at h
    simp only at h
    by_cases c6 : atoiOk ds = true
    · rw [if_pos c6] at h; injection h with he; rw [← he]
      exact ⟨hffh, rfl, rfl⟩
    · rw [if_neg c6] at h; cases h
  | none =>
    rw [ht] at h
    simp only at h
    by_cases c7 : ("commit ".toList).isPrefixOf line = true
    · rw [if_pos c7] at h; injection h with he; rw [← he]; exact ⟨rfl, rfl, rfl⟩
    rw [if_neg c7] at h
    by_cases c8 : ("diff --git ".toList).isPrefixOf line = true
    · rw [if_pos c8] at h; injection h with he; rw [← he]; exact ⟨rfl, rfl, rfl⟩
    rw [if_neg c8] at h
    by_cases c9 : ("+++ b/".toList).isPrefixOf line = true
    · rw [if_pos c9] at h; injection h with he; rw [← he]; exact ⟨hffh, rfl, rfl⟩
    rw [if_neg c9] at h
    rw [if_pos (by rw [hffh]; rfl)] at h
    rw [if_neg hk] at h
    injection h with he; rw [← he]
    exact ⟨hffh, rfl, rfl⟩

theorem runFrags_noHunk_inv (dat : Str) (frags : List Str) :
    ∀ (s s' : ParseState), s.foundFirstHunk = false →
    (∀ f ∈ frags, ¬(("@@".toList).isPrefixOf (trimRightNL f) = true)) →
    runFrags dat s frags = .ok s' →
    s'.foundFirstHunk = false ∧ s'.num = s.num ∧ s'.comments = s.comments := by
  induction frags with
  | nil =>
    intro s s' hffh _ hr
    injection hr with he
    rw [← he]
    exact ⟨hffh, rfl, rfl⟩
  | cons f fs ih =>
    intro s s' hffh hk hr
    unfold runFrags at hr
    by_cases hf : f = []
    · rw [if_pos hf] at hr
      injection hr with he
      rw [← he]
      exact ⟨hffh, rfl, rfl⟩
    · rw [if_neg hf] at hr
      cases hstep : step dat s f with
      | error e => rw [hstep] at hr; cases hr
      | ok s1 =>
        rw [hstep] at hr
        have h1 := stepLine_noHunk_inv dat s (trimRightNL f)
          (s.off + (f.length : Int)) s1 hffh
          (hk f (List.mem_cons_self f fs)) hstep
        have h2 := ih s1 s' h1.1
          (fun x hx => hk x (List.mem_cons_of_mem f hx)) hr
        exact ⟨h2.1, h2.2.1.trans h1.2.1, h2.2.2.trans h1.2.2⟩

theorem stepLine_error_overflow (dat : Str) (s : ParseState) (line : Str)
    (off : Int) (e : Unit) (h : stepLine dat s line off = .error e) :
    overflowLine line = true := by
  simp only [stepLine] at h
  by_cases c1 : line = topLevelStartMarker
  · rw [if_pos c1] at h; cases h
  rw [if_neg c1] at h
  by_cases c2 : line = topLevelEndMarker
  · rw [if_pos c2] at h
    by_cases c2b : off - (line.length : Int) - 2 > s.topLevelCommentStart
    · rw [if_pos c2b] at h; cases h
    · rw [if_neg c2b] at h; cases h
  rw [if_neg c2] at h
  by_cases c3 : s.topLevelCommentStart ≠ 0
  · rw [if_pos c3] at h; cases h
  rw [if_neg c3] at h
  by_cases c4 : line = inlineStartMarker
  · rw [if_pos c4] at h; cases h
  rw [if_neg c4] at h
  by_cases c5 : line = inlineEndMarker
  · rw [if_pos c5] at h; cases h
  rw [if_neg c5] at h
  cases ht : threadDigits line with
  | some ds =>
    rw [ht] at h
    simp only at h
    by_cases c6 : atoiOk ds = true
    · rw [if_pos c6] at h; cases h
    · unfold overflowLine
      rw [ht]
      simp only [Bool.not_eq_true']
      exact Bool.not_eq_true _ ▸ (by simpa using c6)
  | none =>
    rw [ht] at h
    simp only at h
    by_cases c7 : ("commit ".toList).isPrefixOf line = true
    · rw [if_pos c7] at h; cases h
    rw [if_neg c7] at h
    by_cases c8 : ("diff --git ".toList).isPrefixOf line = true
    · rw [if_pos c8] at h; cases h
    rw [if_neg c8] at h
    by_cases c9 : ("+++ b/".toList).isPrefixOf line = true
    · rw [if_pos c9] at h; cases h
    rw [if_neg c9] at h
    by_cases c10 : (!s.foundFirstHunk) = true
    · rw [if_pos c10] at h
      by_cases c11 : ("@@".toList).isPrefixOf line = true
      · rw [if_pos c11] at h; cases h
      · rw [if_neg c11] at h; cases h
    rw [if_neg c10] at h
    by_cases c12 : line = []
    · rw [if_pos c12] at h; cases h
    rw [if_neg c12] at h
    by_cases c13 : (line.head? = some '+' ∨ line.head? = some '-' ∨
        line.head? = some ' ' ∨ line.head? = some '@')
    · rw [if_pos c13] at h; cases h
    rw [if_neg c13] at h
    by_cases c14 : (line.head? = some '*' ∨ line.head? = some '\t')
    · rw [if_pos c14] at h; cases h
    rw [if_neg c14] at h
    cases h

theorem runFrags_ok_of_no_overflow (dat : Str) (frags : List Str) :
    ∀ s : ParseState,
    (∀ f ∈ frags, overflowLine (trimRightNL f) = false) →
    (runFrags dat s frags).isOk = true := by
  induction frags with
  | nil => intro s _; rfl
  | cons f fs ih =>
    intro s hno
    unfold runFrags
    by_cases hf : f = []
    · rw [if_pos hf]; rfl
    · rw [if_neg hf]
      cases hstep : step dat s f with
      | error e =>
        have h2 := stepLine_error_overflow dat s (trimRightNL f)
          (s.off + (f.length : Int)) e hstep
        rw [hno f (List.mem_cons_self f fs)] at h2
        cases h2
      | ok s1 => exact ih s1 (fun x hx => hno x (List.mem_cons_of_mem f hx))

/-- C6 (amended): the decoder succeeds on every input in which no line
matches the thread-id pattern with digits exceeding the 64-bit `int` range;
on such a thread line `strconv.Atoi` overflows and `parseFile` returns the
error instead. -/
theorem c6_decoder_total_unless_overflow (dat : Str)
    (h : ∀ f ∈ splitAfterNL dat, overflowLine (trimRightNL f) = false) :
    (parseFile dat).isOk = true := by
  unfold parseFile
  have h2 := runFrags_ok_of_no_overflow dat (splitAfterNL dat) initState h
  cases hres : runFrags dat initState (splitAfterNL dat) with
  | error e =>
    rw [hres] at h2
    simp [Except.isOk, Except.toBool] at h2
  | ok s => rfl

/-- C6 counterexample: on a document whose only content is an echoed thread
header carrying a 20-digit thread id, the decoder returns an error rather
than a request, so it is not total. -/
theorem c6_totality_counterexample :
    (parseFile ("* Comment by @a (b) thread 99999999999999999999\n".toList)).isOk
      = false := by
  rfl

/-- Witness for the amended C6 on a small concrete document. -/
theorem c6_decoder_total_unless_overflow_witness :
    (parseFile ("commit c\n@@ h\nsome text\n* Comment by @a (b) thread 42\n".toList)).isOk
      = true :=
  c6_decoder_total_unless_overflow
    ("commit c\n@@ h\nsome text\n* Comment by @a (b) thread 42\n".toList)
    (by decide)

theorem lookupA_updA_same [DecidableEq κ] (k : κ) (f : Option β → β)
    (m : List (κ × β)) : lookupA k (updA k f m) = some (f (lookupA k m)) := by
  induction m with
  | nil => simp [lookupA, updA]
  | cons kv rest ih =>
    obtain ⟨k', v⟩ := kv
    by_cases hk : k = k'
    · subst hk
      simp [lookupA, updA]
    · simp [lookupA, updA, hk, ih]

theorem lookupA_updA_other [DecidableEq κ] (k k2 : κ) (f : Option β → β)
    (m : List (κ × β)) (h : k2 ≠ k) :
    lookupA k2 (updA k f m) = lookupA k2 m := by
  induction m with
  | nil => simp [lookupA, updA, h]
  | cons kv rest ih =>
    obtain ⟨k', v⟩ := kv
    by_cases hk : k = k'
    · subst hk
      simp [lookupA, updA, h]
    · by_cases hk2 : k2 = k'
      · subst hk2
        simp [lookupA, updA, hk]
      · simp [lookupA, updA, hk, hk2, ih]

theorem CC_get_chain (idx : CommitComments GoComment) (cid f : Str) (p : Int) :
    CommitComments.get idx cid f p =
      lookupA p ((lookupA f ((lookupA cid idx).getD [])).getD []) := by
  unfold CommitComments.get
  cases hA : lookupA cid idx with
  | none => simp [lookupA]
  | some files =>
    cases hB : lookupA f files with
    | none => simp [hB, lookupA]
    | some lines => simp [hB]

/-- C7: the existing-comment index contract — `put` skips comments with a
nil position leaving the index unchanged; `put` appends a positioned
comment at exactly its (commit, file, position) key, leaving every other
key unchanged; `get` on the empty index is nil. -/
theorem c7_index_contract :
    (∀ (idx : CommitComments GoComment) (c : GoComment),
      c.position = none → CommitComments.put idx c = idx) ∧
    (∀ (idx : CommitComments GoComment) (c : GoComment) (p : Int),
      c.position = some p →
      CommitComments.get (CommitComments.put idx c) c.commitID c.path p =
        some ((CommitComments.get idx c.commitID c.path p).getD [] ++ [c])) ∧
    (∀ (idx : CommitComments GoComment) (c : GoComment) (p : Int)
      (c2 f2 : Str) (l2 : Int), c.position = some p →
      ¬(c2 = c.commitID ∧ f2 = c.path ∧ l2 = p) →
      CommitComments.get (CommitComments.put idx c) c2 f2 l2 =
        CommitComments.get idx c2 f2 l2) ∧
    (∀ (c2 f2 : Str) (l2 : Int),
      CommitComments.get ([] : CommitComments GoComment) c2 f2 l2 = none) := by
  refine ⟨?_, ?_, ?_, ?_⟩
  · intro idx c hp
    unfold CommitComments.put
    rw [hp]
  · intro idx c p hp
    unfold CommitComments.put
    rw [hp, CC_get_chain, CC_get_chain]
    rw [lookupA_updA_same]
    simp only [Option.getD]
    rw [lookupA_updA_same]
    simp only [Option.getD]
    rw [lookupA_updA_same]
  · intro idx c p c2 f2 l2 hp hne
    unfold CommitComments.put
    rw [hp, CC_get_chain, CC_get_chain]
    by_cases h1 : c2 = c.commitID
    · subst h1
      rw [lookupA_updA_same]
      simp only [Option.getD]
      by_cases h2 : f2 = c.path
      · subst h2
        rw [lookupA_updA_same]
        simp only [Option.getD]
        have h3 : l2 ≠ p := fun he => hne ⟨rfl, rfl, he⟩
        rw [lookupA_updA_other _ _ _ _ h3]
      · rw [lookupA_updA_other _ _ _ _ h2]
    · rw [lookupA_updA_other _ _ _ _ h1]
  · intro c2 f2 l2
    rfl

/-- Witness for C7 at concrete comments and keys. -/
theorem c7_index_contract_witness :
    (CommitComments.put []
      { commitID := "c".toList, path := "p".toList, position := none,
        id := 1, userLogin := "u".toList, createdAt := "t".toList,
        body := "b".toList, inReplyTo := none } = []) ∧
    (CommitComments.get (CommitComments.put []
      { commitID := "c".toList, path := "p".toList, position := some 3,
        id := 1, userLogin := "u".toList, createdAt := "t".toList,
        body := "b".toList, inReplyTo := none })
        ("c".toList) ("p".toList) 3 =
      some [{ commitID := "c".toList, path := "p".toList, position := some 3,
              id := 1, userLogin := "u".toList, createdAt := "t".toList,
              body := "b".toList, inReplyTo := none }]) ∧
    (CommitComments.get (CommitComments.put []
      { commitID := "c".toList, path := "p".toList, position := some 3,
        id := 1, userLogin := "u".toList, createdAt := "t".toList,
        body := "b".toList, inReplyTo := none })
        ("c".toList) ("p".toList) 4 = none) := by
  refine ⟨?_, ?_, ?_⟩
  · exact c7_index_contract.1 []
      { commitID := "c".toList, path := "p".toList, position := none,
        id := 1, userLogin := "u".toList, createdAt := "t".toList,
        body := "b".toList, inReplyTo := none } rfl
  · have h := c7_index_contract.2.1 []
      { commitID := "c".toList, path := "p".toList, position := some 3,
        id := 1, userLogin := "u".toList, createdAt := "t".toList,
        body := "b".toList, inReplyTo := none } 3 rfl
    simpa using h
  · have h := c7_index_contract.2.2.1 []
      { commitID := "c".toList, path := "p".toList, position := some 3,
        id := 1, userLogin := "u".toList, createdAt := "t".toList,
        body := "b".toList, inReplyTo := none } 3
      ("c".toList) ("p".toList) 4 rfl (by decide)
    simpa using h

theorem stepLine_body_inv (dat : Str) (s : ParseState) (line : Str)
    (off : Int) (s' : ParseState) (htl : s.topLevelCommentStart = 0)
    (h1 : line ≠ topLevelStartMarker) (h2 : line ≠ topLevelEndMarker)
    (h : stepLine dat s line off = .ok s') :
    s'.reviewBody = s.reviewBody ∧ s'.topLevelCommentStart = 0 := by
  simp only [stepLine] at h
  rw [if_neg h1, if_neg h2, if_neg (fun hn => hn htl)] at h
  by_cases c4 : line = inlineStartMarker
  · rw [if_pos c4] at h; injection h with he; rw [← he]; exact ⟨rfl, htl⟩
  rw [if_neg c4] at h
  by_cases c5 : line = inlineEndMarker
  · rw [if_pos c5] at h; injection h with he; rw [← he]; exact ⟨rfl, htl⟩
  rw [if_neg c5] at h
  cases ht : threadDigits line with
  | some ds =>
    rw [ht] at h
    simp only at h
    by_cases c6 : atoiOk ds = true
    · rw [if_pos c6] at h; injection h with he; rw [← he]; exact ⟨rfl, htl⟩
    · rw [if_neg c6] at h; cases h
  | none =>
    rw [ht] at h
    simp only at h
    by_cases c7 : ("commit ".toList).isPrefixOf line = true
    · rw [if_pos c7] at h; injection h with he; rw [← he]; exact ⟨rfl, htl⟩
    rw [if_neg c7] at h
    by_cases c8 : ("diff --git ".toList).isPrefixOf line = true
    · rw [if_pos c8] at h; injection h with he; rw [← he]; exact ⟨rfl, htl⟩
    rw [if_neg c8] at h
    by_cases c9 : ("+++ b/".toList).isPrefixOf line = true
    · rw [if_pos c9] at h; injection h with he; rw [← he]; exact ⟨rfl, htl⟩
    rw [if_neg c9] at h
    by_cases c10 : (!s.foundFirstHunk) = true
    · rw [if_pos c10] at h
      by_cases c11 : ("@@".toList).isPrefixOf line = true
      · rw [if_pos c11] at h; injection h with he; rw [← he]; exact ⟨rfl, htl⟩
      · rw [if_neg c11] at h; injection h with he; rw [← he]; exact ⟨rfl, htl⟩
    rw [if_neg c10] at h
    by_cases c12 : line = []
    · rw [if_pos c12] at h; injection h with he; rw [← he]; exact ⟨rfl, htl⟩
    rw [if_neg c12] at h
    by_cases c13 : (line.head? = some '+' ∨ line.head? = some '-' ∨
        line.head? = some ' ' ∨ line.head? = some '@')
    · rw [if_pos c13] at h; injection h with he; rw [← he]; exact ⟨rfl, htl⟩
    rw [if_neg c13] at h
    by_cases c14 : (line.head? = some '*' ∨ line.head? = some '\t')
    · rw [if_pos c14] at h; injection h with he; rw [← he]; exact ⟨rfl, htl⟩
    rw [if_neg c14] at h
    injection h with he; rw [← he]; exact ⟨rfl, htl⟩

theorem runLines_inert_body (dat : Str) (ls : List Str) :
    ∀ s : ParseState, s.topLevelCommentStart = 0 →
    (∀ l ∈ ls, l ≠ topLevelStartMarker ∧ l ≠ topLevelEndMarker ∧
      overflowLine l = false ∧ '\n' ∉ l) →
    ∃ s', runLines dat s ls = .ok s' ∧ s'.reviewBody = s.reviewBody ∧
      s'.topLevelCommentStart = 0 ∧
      s'.off = s.off + ((linesJoin ls).length : Int) := by
  induction ls with
  | nil =>
    intro s htl _
    exact ⟨s, rfl, rfl, htl, by simp [linesJoin]⟩
  | cons l rest ih =>
    intro s htl hall
    obtain ⟨hm1, hm2, hov, hnl⟩ := hall l (List.mem_cons_self l rest)
    rw [runLines_cons dat s l rest hnl]
    cases hstep : stepLine dat s l (s.off + (l.length : Int) + 1) with
    | error e =>
      have h2 := stepLine_error_overflow dat s l _ e hstep
      rw [hov] at h2
      cases h2
    | ok s1 =>
      have hb := stepLine_body_inv dat s l _ s1 htl hm1 hm2 hstep
      have ho := stepLine_off dat s l _ s1 hstep
      obtain ⟨s', hrun, hb', htl', ho'⟩ := ih s1 hb.2
        (fun x hx => hall x (List.mem_cons_of_mem l hx))
      refine ⟨s', by simp only; exact hrun, hb'.trans hb.1, htl', ?_⟩
      rw [ho', ho]
      simp [linesJoin]
      push_cast
      ring

theorem runLines_region (dat : Str) (ls : List Str) :
    ∀ s : ParseState, s.topLevelCommentStart ≠ 0 →
    (∀ l ∈ ls, l ≠ topLevelStartMarker ∧ l ≠ topLevelEndMarker ∧ '\n' ∉ l) →
    ∃ cs lcs, runLines dat s ls =
      .ok { s with commentStart := cs, lastCommentStart := lcs,
                   off := s.off + ((linesJoin ls).length : Int) } := by
  induction ls with
  | nil =>
    intro s _ _
    refine ⟨s.commentStart, s.lastCommentStart, ?_⟩
    simp only [runLines_nil]
    congr 1
    apply ParseState.ext <;> simp [linesJoin]
  | cons l rest ih =>
    intro s htl hall
    obtain ⟨hm1, hm2, hnl⟩ := hall l (List.mem_cons_self l rest)
    rw [runLines_cons dat s l rest hnl,
      stepLine_region dat s l _ htl hm1 hm2]
    obtain ⟨cs, lcs, hrun⟩ := ih (adv s (s.off + (l.length : Int) + 1))
      (by simpa [adv] using htl)
      (fun x hx => hall x (List.mem_cons_of_mem l hx))
    refine ⟨cs, lcs, ?_⟩
    simp only
    rw [hrun]
    congr 1
    apply ParseState.ext <;> simp [adv, linesJoin] <;> push_cast <;> ring

theorem sliceI_dropLast (pre x rest : Str) :
    sliceI (pre ++ (x ++ rest)) (pre.length : Int)
      ((pre.length : Int) + (x.length : Int) - 1) = x.dropLast := by
  unfold sliceI
  have h1 : ((pre.length : Int)).toNat = pre.length := Int.toNat_natCast _
  have h2 : (((pre.length : Int) + (x.length : Int) - 1) -
      (pre.length : Int)).toNat = x.length - 1 := by omega
  rw [h1, h2, List.drop_left]
  cases hx : x.length with
  | zero =>
    have : x = [] := List.eq_nil_of_length_eq_zero hx
    subst this
    simp
  | succ n =>
    rw [List.take_append_of_le_length (by omega)]
    rw [List.dropLast_eq_take, hx]

/-- C4 (amended): the text strictly between the top-level markers, minus
its final newline and with the tag `\n<!-- review by re -->` appended,
becomes the body; a region of at most one character (empty, or a single
blank line) produces no body; no trimming of leading blank lines occurs.
Lines outside a properly paired marker block never reach the body. -/
theorem c4_top_level_extraction
    (preLines regionLines postLines : List Str)
    (hpre : ∀ l ∈ preLines, l ≠ topLevelStartMarker ∧
      l ≠ topLevelEndMarker ∧ overflowLine l = false ∧ '\n' ∉ l)
    (hreg : ∀ l ∈ regionLines, l ≠ topLevelStartMarker ∧
      l ≠ topLevelEndMarker ∧ '\n' ∉ l)
    (hpost : ∀ l ∈ postLines, l ≠ topLevelStartMarker ∧
      l ≠ topLevelEndMarker ∧ overflowLine l = false ∧ '\n' ∉ l) :
    ∃ r, parseFile (linesJoin (preLines ++ (topLevelStartMarker ::
        (regionLines ++ (topLevelEndMarker :: postLines))))) = .ok r ∧
      r.body = (if 2 ≤ (linesJoin regionLines).length then
        some ((linesJoin regionLines).dropLast ++ reSuffix) else none) := by
  have hSnl : '\n' ∉ topLevelStartMarker := by decide
  have hEnl : '\n' ∉ topLevelEndMarker := by decide
  set dat := linesJoin (preLines ++ (topLevelStartMarker ::
    (regionLines ++ (topLevelEndMarker :: postLines)))) with hdatdef
  have hAll : ∀ l ∈ preLines ++ (topLevelStartMarker ::
      (regionLines ++ (topLevelEndMarker :: postLines))), '\n' ∉ l := by
    intro l hl
    rcases List.mem_append.mp hl with hl | hl
    · exact (hpre l hl).2.2.2
    rcases List.mem_cons.mp hl with rfl | hl
    · exact hSnl
    rcases List.mem_append.mp hl with hl | hl
    · exact (hreg l hl).2.2
    rcases List.mem_cons.mp hl with rfl | hl
    · exact hEnl
    · exact (hpost l hl).2.2.2
  obtain ⟨s1, hrun1, hb1, htl1, ho1⟩ :=
    runLines_inert_body dat preLines initState rfl hpre
  have hb1' : s1.reviewBody = none := hb1
  have ho1' : s1.off = ((linesJoin preLines).length : Int) := by
    rw [ho1]
    simp [initState]
  have hstep2 := stepLine_tlStart dat s1
    (s1.off + (topLevelStartMarker.length : Int) + 1)
  set A : Int := s1.off + (topLevelStartMarker.length : Int) + 1 with hAdef
  set s2 : ParseState := { adv s1 A with topLevelCommentStart := A } with hs2
  have hApos : 0 < A := by
    rw [hAdef, ho1']
    positivity
  obtain ⟨cs3, lcs3, hrun3⟩ := runLines_region dat regionLines s2
    (by
      show A ≠ 0
      omega)
    (fun l hl => hreg l hl)
  set s3 : ParseState :=
    { s2 with
        commentStart := cs3, lastCommentStart := lcs3,
        off := s2.off + ((linesJoin regionLines).length : Int) } with hs3
  have hstep4 := stepLine_tlEnd dat s3
    (s3.off + (topLevelEndMarker.length : Int) + 1)
  have hcond : (s3.off + (topLevelEndMarker.length : Int) + 1 -
      (topLevelEndMarker.length : Int) - 2 > s3.topLevelCommentStart) ↔
      2 ≤ (linesJoin regionLines).length := by
    show s3.off + (topLevelEndMarker.length : Int) + 1 -
      (topLevelEndMarker.length : Int) - 2 > A ↔ _
    have : s3.off = A + ((linesJoin regionLines).length : Int) := by
      rw [hs3]
      rfl
    rw [this]
    omega
  have hslice : sliceI dat A (s3.off + (topLevelEndMarker.length : Int) + 1 -
      (topLevelEndMarker.length : Int) - 2) =
      (linesJoin regionLines).dropLast := by
    have hoff3 : s3.off + (topLevelEndMarker.length : Int) + 1 -
        (topLevelEndMarker.length : Int) - 2 =
        A + ((linesJoin regionLines).length : Int) - 1 := by
      have : s3.off = A + ((linesJoin regionLines).length : Int) := by
        rw [hs3]
        rfl
      rw [this]
      ring
    have hA : A = (((linesJoin preLines) ++ topLevelStartMarker ++
        ['\n']).length : Int) := by
      rw [hAdef, ho1']
      push_cast [List.length_append, List.length_cons, List.length_nil]
      ring
    have hdat2 : dat = ((linesJoin preLines) ++ topLevelStartMarker ++
        ['\n']) ++ (linesJoin regionLines ++
          (topLevelEndMarker ++ '\n' :: linesJoin postLines)) := by
      rw [hdatdef]
      simp [linesJoin]
    rw [hoff3, hA, hdat2]
    exact sliceI_dropLast _ (linesJoin regionLines) _
  rw [parseFile_runLines _ hAll]
  rw [← hdatdef]
  rw [runLines_append dat initState preLines _, hrun1]
  simp only
  rw [runLines_cons dat s1 topLevelStartMarker _ hSnl, hstep2]
  simp only
  rw [runLines_append dat s2 regionLines _, hrun3]
  simp only
  rw [runLines_cons dat s3 topLevelEndMarker _ hEnl, hstep4]
  by_cases hR : 2 ≤ (linesJoin regionLines).length
  · rw [if_pos (hcond.mpr hR)]
    simp only
    obtain ⟨s5, hrun5, hb5, htl5, ho5⟩ := runLines_inert_body dat postLines
      { adv s3 (s3.off + (topLevelEndMarker.length : Int) + 1) with
        reviewBody := some (sliceI dat s3.topLevelCommentStart
          (s3.off + (topLevelEndMarker.length : Int) + 1 -
            ((topLevelEndMarker.length : Int)) - 2) ++ reSuffix),
        topLevelCommentStart := 0 } rfl hpost
    rw [hrun5]
    refine ⟨_, rfl, ?_⟩
    show s5.reviewBody = _
    rw [hb5]
    show some (sliceI dat A _ ++ reSuffix) = _
    rw [hslice, if_pos hR]
  · rw [if_neg (fun hc => hR (hcond.mp hc))]
    simp only
    obtain ⟨s5, hrun5, hb5, htl5, ho5⟩ := runLines_inert_body dat postLines
      { adv s3 (s3.off + (topLevelEndMarker.length : Int) + 1) with
        topLevelCommentStart := 0 } rfl hpost
    rw [hrun5]
    refine ⟨_, rfl, ?_⟩
    show s5.reviewBody = _
    rw [hb5]
    show s3.reviewBody = _
    have : s3.reviewBody = s1.reviewBody := rfl
    rw [this, hb1', if_neg hR]

/-- C4 counterexample: with `nice` as the only region line, the decoded
top-level body is not the verbatim region text — the decoder appends the
tag `\n<!-- review by re -->`. -/
theorem c4_verbatim_counterexample :
    (parseFile (linesJoin [topLevelStartMarker, "nice".toList,
        topLevelEndMarker])).map (fun r => r.body) =
      .ok (some ("nice\n<!-- review by re -->".toList)) ∧
    some ("nice\n<!-- review by re -->".toList) ≠ some ("nice".toList) := by
  constructor
  · rfl
  · decide

/-- Witness for the amended C4 on a concrete document. -/
theorem c4_top_level_extraction_witness :
    ∃ r, parseFile (linesJoin (["hello".toList] ++ (topLevelStartMarker ::
        (["nice".toList] ++ (topLevelEndMarker :: ["tail".toList]))))) =
          .ok r ∧
      r.body = (if 2 ≤ (linesJoin ["nice".toList]).length then
        some ((linesJoin ["nice".toList]).dropLast ++ reSuffix) else none) :=
  c4_top_level_extraction ["hello".toList] ["nice".toList] ["tail".toList]
    (by decide) (by decide) (by decide)

/-
  Round-trip infrastructure (C2): the encoder's output, line by line.
-/

theorem linesJoin_cons (l : Str) (ls : List Str) :
    linesJoin (l :: ls) = l ++ '\n' :: linesJoin ls := by
  simp [linesJoin]

theorem linesJoin_splitNL (x : Str) : linesJoin (splitNL x) = x ++ ['\n'] := by
  induction x with
  | nil => rfl
  | cons c cs ih =>
    by_cases hc : c = '\n'
    · subst hc
      have he : splitNL ('\n' :: cs) = [] :: splitNL cs := by simp [splitNL]
      rw [he, linesJoin_cons, ih]
      rfl
    · cases hcs : splitNL cs with
      | nil => exact absurd hcs (splitNL_ne_nil cs)
      | cons r rs =>
        have he : splitNL (c :: cs) = (c :: r) :: rs := by
          simp [splitNL, hc, hcs]
        have ih2 : r ++ '\n' :: linesJoin rs = cs ++ ['\n'] := by
          rw [← linesJoin_cons, ← hcs]
          exact ih
        rw [he, linesJoin_cons, List.cons_append, ih2]
        rfl

theorem splitAfterNL_append_nl (s : Str) :
    splitAfterNL (s ++ ['\n']) =
      (splitNL s).map (fun l => l ++ ['\n']) ++ [[]] := by
  induction s with
  | nil => rfl
  | cons c cs ih =>
    by_cases hc : c = '\n'
    · subst hc
      have h1 : splitAfterNL ('\n' :: (cs ++ ['\n'])) =
          ['\n'] :: splitAfterNL (cs ++ ['\n']) := by simp [splitAfterNL]
      have h2 : splitNL ('\n' :: cs) = [] :: splitNL cs := by simp [splitNL]
      rw [List.cons_append, h1, ih, h2]
      rfl
    · cases hcs : splitNL cs with
      | nil => exact absurd hcs (splitNL_ne_nil cs)
      | cons r rs =>
        have h2 : splitNL (c :: cs) = (c :: r) :: rs := by
          simp [splitNL, hc, hcs]
        have hin : splitAfterNL (cs ++ ['\n']) =
            (r ++ ['\n']) :: (rs.map (fun l => l ++ ['\n']) ++ [[]]) := by
          rw [ih, hcs]
          rfl
        have h1 : splitAfterNL (c :: (cs ++ ['\n'])) =
            (c :: (r ++ ['\n'])) :: (rs.map (fun l => l ++ ['\n']) ++ [[]]) := by
          simp [splitAfterNL, hc, hin]
        rw [List.cons_append, h1, h2]
        rfl

theorem checkFrags_lines (L : List Str) :
    ∀ ffh, (∀ l ∈ L, '\n' ∉ l) →
    checkFrags ffh (L.map (fun l => l ++ ['\n']) ++ [[]]) = checkLines ffh L := by
  induction L with
  | nil => intro ffh _; rfl
  | cons l ls ih =>
    intro ffh hno
    have hl : '\n' ∉ l := hno l (List.mem_cons_self l ls)
    have hne : ¬(l ++ ['\n'] = []) := by simp
    simp only [List.map_cons, List.cons_append, checkFrags, checkLines,
      if_neg hne]
    rw [trimRightNL_line l hl]
    congr 1
    exact ih (nextFFH ffh l) (fun x hx => hno x (List.mem_cons_of_mem l hx))

theorem echoComment_linesJoin (c : GoComment) :
    echoComment c = linesJoin (echoCommentLines c) := by
  unfold echoComment echoCommentLines
  rw [linesJoin_cons, linesJoin_splitNL]
  simp [List.append_assoc]

theorem linesJoin_flatten_echo (cs : List GoComment) :
    linesJoin ((cs.map echoCommentLines).flatten) = (cs.map echoComment).flatten := by
  induction cs with
  | nil => rfl
  | cons c cs ih =>
    simp only [List.map_cons, List.flatten_cons, linesJoin_append, ih,
      echoComment_linesJoin c]

theorem inlineBlock_linesJoin (cs : List GoComment) :
    inlineBlock cs = linesJoin (blockLines cs) := by
  unfold inlineBlock blockLines
  rw [linesJoin_append, linesJoin_cons, linesJoin_flatten_echo,
    linesJoin_cons]
  simp [linesJoin, List.append_assoc]

theorem diffEcho_cons (idx : CommitComments GoComment) (es : EncState)
    (l : Str) (hl : '\n' ∉ l) (fs : List Str) :
    diffEcho idx es ((l ++ ['\n']) :: fs) =
      if ("commit ".toList).isPrefixOf l then
        (l ++ ['\n']) ++
          diffEcho idx { es with foundFirstHunk := false, commit := l.drop 7 } fs
      else if ("diff --git ".toList).isPrefixOf l then
        (l ++ ['\n']) ++ diffEcho idx { es with foundFirstHunk := false } fs
      else if ("+++ b/".toList).isPrefixOf l then
        (l ++ ['\n']) ++ diffEcho idx { es with file := l.drop 6 } fs
      else if !es.foundFirstHunk then
        if ("@@".toList).isPrefixOf l then
          (l ++ ['\n']) ++
            diffEcho idx { es with foundFirstHunk := true, num := 0 } fs
        else (l ++ ['\n']) ++ diffEcho idx es fs
      else
        match idx.get es.commit es.file (es.num + 1) with
        | some cs =>
          (l ++ ['\n']) ++ inlineBlock cs ++
            diffEcho idx { es with num := es.num + 1 } fs
        | none => (l ++ ['\n']) ++ diffEcho idx { es with num := es.num + 1 } fs := by
  have hne : ¬(l ++ ['\n'] = []) := by simp
  conv_lhs => rw [diffEcho.eq_def]
  simp only [if_neg hne, trimRightNL_line l hl]

theorem echoLines_cons (idx : CommitComments GoComment) (es : EncState)
    (l : Str) (ls : List Str) :
    echoLines idx es (l :: ls) =
      if ("commit ".toList).isPrefixOf l then
        l :: echoLines idx { es with foundFirstHunk := false, commit := l.drop 7 } ls
      else if ("diff --git ".toList).isPrefixOf l then
        l :: echoLines idx { es with foundFirstHunk := false } ls
      else if ("+++ b/".toList).isPrefixOf l then
        l :: echoLines idx { es with file := l.drop 6 } ls
      else if !es.foundFirstHunk then
        if ("@@".toList).isPrefixOf l then
          l :: echoLines idx { es with foundFirstHunk := true, num := 0 } ls
        else l :: echoLines idx es ls
      else
        match idx.get es.commit es.file (es.num + 1) with
        | some cs =>
          l :: (blockLines cs ++ echoLines idx { es with num := es.num + 1 } ls)
        | none => l :: echoLines idx { es with num := es.num + 1 } ls := rfl

theorem diffEcho_echoLines (idx : CommitComments GoComment) :
    ∀ (L : List Str) (es : EncState), (∀ l ∈ L, '\n' ∉ l) →
    diffEcho idx es (L.map (fun l => l ++ ['\n']) ++ [[]]) =
      linesJoin (echoLines idx es L) := by
  intro L
  induction L with
  | nil => intro es _; rfl
  | cons l ls ih =>
    intro es hno
    have hl : '\n' ∉ l := hno l (List.mem_cons_self l ls)
    have hno' : ∀ x ∈ ls, '\n' ∉ x := fun x hx => hno x (List.mem_cons_of_mem l hx)
    simp only [List.map_cons, List.cons_append]
    rw [diffEcho_cons idx es l hl, echoLines_cons]
    by_cases h1 : ("commit ".toList).isPrefixOf l = true
    · rw [if_pos h1, if_pos h1, linesJoin_cons, ih _ hno']
      simp [List.append_assoc]
    rw [if_neg h1, if_neg h1]
    by_cases h2 : ("diff --git ".toList).isPrefixOf l = true
    · rw [if_pos h2, if_pos h2, linesJoin_cons, ih _ hno']
      simp [List.append_assoc]
    rw [if_neg h2, if_neg h2]
    by_cases h3 : ("+++ b/".toList).isPrefixOf l = true
    · rw [if_pos h3, if_pos h3, linesJoin_cons, ih _ hno']
      simp [List.append_assoc]
    rw [if_neg h3, if_neg h3]
    by_cases h4 : (!es.foundFirstHunk) = true
    · rw [if_pos h4, if_pos h4]
      by_cases h5 : ("@@".toList).isPrefixOf l = true
      · rw [if_pos h5, if_pos h5, linesJoin_cons, ih _ hno']
        simp [List.append_assoc]
      · rw [if_neg h5, if_neg h5, linesJoin_cons, ih _ hno']
        simp [List.append_assoc]
    rw [if_neg h4, if_neg h4]
    cases hget : idx.get es.commit es.file (es.num + 1) with
    | some cs =>
      simp only
      rw [linesJoin_cons, linesJoin_append, ih _ hno',
        inlineBlock_linesJoin]
      simp [List.append_assoc]
    | none =>
      simp only
      rw [linesJoin_cons, ih _ hno']
      simp [List.append_assoc]

theorem ne_of_snds (l m : Str) (c cm : Char) (hm : m.tail.head? = some cm)
    (hl : l.tail.head? = some c) (hc : c ≠ cm) : l ≠ m := by
  intro he
  rw [he, hm] at hl
  exact hc (Option.some.inj hl).symm

theorem threadDigits_none_of_tab (l : Str) (t : Str)
    (h : l = '*' :: '\t' :: t) : threadDigits l = none := by
  cases ht : threadDigits l with
  | none => rfl
  | some ds =>
    obtain ⟨u, hu⟩ := threadLine_shape l ds ht
    rw [h] at hu
    simp at hu

theorem ne_of_len72 (l m : Str) (hl : l.length ≤ 72) (hm : m.length = 80) :
    l ≠ m := by
  intro he
  rw [he, hm] at hl
  omega

theorem echoBody_lines (b : Str) :
    ∀ seg ∈ splitNL ("*\t".toList ++ wrap b ("*\t".toList)),
      ∃ t, seg = '*' :: '\t' :: t ∧ seg.length ≤ 72 ∧ '\n' ∉ seg := by
  have hp : '\n' ∉ ("*\t".toList) := by decide
  obtain ⟨r, rs, hsp, hr, hrs⟩ :=
    wrapLines_segs ("*\t".toList) hp (splitNL (replaceCRLF b))
      (splitNL_mem_noNL (replaceCRLF b))
  have hsp3 : splitNL (wrap b ("*\t".toList)) = r :: rs := by
    unfold wrap
    exact hsp
  have hsp2 : splitNL ("*\t".toList ++ wrap b ("*\t".toList)) =
      (("*\t".toList) ++ r) :: rs :=
    splitNL_prepend _ _ hp r rs hsp3
  intro seg hseg
  rw [hsp2] at hseg
  rcases List.mem_cons.mp hseg with rfl | hseg
  · refine ⟨r, rfl, ?_, ?_⟩
    · simp only [List.length_append]
      have : ("*\t".toList).length = 2 := by decide
      omega
    · intro hm
      rcases List.mem_append.mp hm with hm | hm
      · exact hp hm
      · exact splitNL_mem_noNL (wrap b ("*\t".toList)) r
          (by rw [hsp3]; exact List.mem_cons_self r rs) hm
  · obtain ⟨hpfx, hlen⟩ := hrs seg hseg
    obtain ⟨t, ht⟩ := prefix_two '*' '\t' [] seg (by exact hpfx)
    refine ⟨t, ht, ?_, ?_⟩
    · have h2 : (seg.drop ("*\t".toList).length).length ≤ 70 := hlen
      have h3 : (seg.drop 2).length ≤ 70 := by
        simpa using h2
      rw [List.length_drop] at h3
      omega
    · exact splitNL_mem_noNL (wrap b ("*\t".toList)) seg
        (by rw [hsp3]; exact List.mem_cons_of_mem r hseg)

theorem runLines_starInert (dat : Str) (ls : List Str) :
    ∀ s : ParseState, s.topLevelCommentStart = 0 →
    (∀ l ∈ ls, '\n' ∉ l ∧ (l = inlineStartMarker ∨ l = inlineEndMarker ∨
      (l.head? = some '*' ∧ overflowLine l = false ∧
       l ≠ inlineStartMarker ∧ l ≠ inlineEndMarker))) →
    ∃ s', runLines dat s ls = .ok s' ∧ s'.comments = s.comments ∧
      s'.reviewBody = s.reviewBody ∧ s'.topLevelCommentStart = 0 ∧
      s'.foundFirstHunk = s.foundFirstHunk ∧ s'.num = s.num := by
  induction ls with
  | nil => intro s htl _; exact ⟨s, rfl, rfl, rfl, htl, rfl, rfl⟩
  | cons l rest ih =>
    intro s htl hall
    obtain ⟨hnl, hcase⟩ := hall l (List.mem_cons_self l rest)
    have hrest := fun x hx => hall x (List.mem_cons_of_mem l hx)
    rw [runLines_cons dat s l rest hnl]
    have hstep : ∃ s1, stepLine dat s l (s.off + (l.length : Int) + 1) = .ok s1 ∧
        s1.comments = s.comments ∧ s1.reviewBody = s.reviewBody ∧
        s1.topLevelCommentStart = 0 ∧ s1.foundFirstHunk = s.foundFirstHunk ∧
        s1.num = s.num := by
      rcases hcase with rfl | rfl | ⟨hh, hov, h3, h4⟩
      · exact ⟨_, stepLine_inlineStart dat s _ htl, rfl, rfl, htl, rfl, rfl⟩
      · exact ⟨_, stepLine_inlineEnd dat s _ htl, rfl, rfl, htl, rfl, rfl⟩
      · cases ht : threadDigits l with
        | some ds =>
          have hok : atoiOk ds = true := by
            unfold overflowLine at hov
            rw [ht] at hov
            simpa using hov
          have hst : stepLine dat s l (s.off + (l.length : Int) + 1) =
              .ok { adv s (s.off + (l.length : Int) + 1) with
                      lastInlineCommentId := (digitsVal ds : Int) } := by
            rw [stepLine_thread dat s l _ ds htl ht, if_pos hok]
          exact ⟨_, hst, rfl, rfl, htl, rfl, rfl⟩
        | none =>
          exact ⟨_, stepLine_star dat s l _ htl (Or.inl hh) h3 h4 ht, rfl, rfl,
            htl, rfl, rfl⟩
    obtain ⟨s1, hs1, hc1, hb1, htl1, hf1, hn1⟩ := hstep
    rw [hs1]
    simp only
    obtain ⟨s', hrun, hc2, hb2, htl2, hf2, hn2⟩ := ih s1 htl1 hrest
    exact ⟨s', hrun, hc2.trans hc1, hb2.trans hb1, htl2, hf2.trans hf1,
      hn2.trans hn1⟩

theorem blockLines_starInert (cs : List GoComment)
    (hval : ∀ c ∈ cs, validEchoComment c = true) :
    ∀ l ∈ blockLines cs, '\n' ∉ l ∧ (l = inlineStartMarker ∨ l = inlineEndMarker ∨
      (l.head? = some '*' ∧ overflowLine l = false ∧
       l ≠ inlineStartMarker ∧ l ≠ inlineEndMarker)) := by
  intro l hl
  unfold blockLines at hl
  rcases List.mem_append.mp hl with hl | hl
  · rcases List.mem_cons.mp hl with rfl | hl
    · exact ⟨by decide, Or.inl rfl⟩
    · obtain ⟨ll, hll, hmem⟩ := List.mem_flatten.mp hl
      obtain ⟨c, hc, rfl⟩ := List.mem_map.mp hll
      have hv := hval c hc
      unfold validEchoComment at hv
      simp only [Bool.and_eq_true, Bool.not_eq_true'] at hv
      obtain ⟨hvnl, hvov⟩ := hv
      unfold echoCommentLines at hmem
      rcases List.mem_cons.mp hmem with rfl | hmem
      · have hpfx : ("* Comment by @".toList).isPrefixOf (echoHeader c) = true := by
          unfold echoHeader
          simp only [List.append_assoc]
          exact isPrefixOf_append_self _ _
        rw [show ("* Comment by @".toList) =
          '*' :: ' ' :: ("Comment by @".toList) from rfl] at hpfx
        obtain ⟨t, ht⟩ := prefix_two '*' ' ' _ _ hpfx
        have hIS : inlineStartMarker.tail.head? = some '*' := by decide
        have hIE : inlineEndMarker.tail.head? = some '*' := by decide
        have hsnd : (echoHeader c).tail.head? = some ' ' := by rw [ht]; rfl
        refine ⟨by simpa using hvnl, Or.inr (Or.inr ⟨by rw [ht]; rfl, hvov,
          ne_of_snds _ _ ' ' '*' hIS hsnd (by decide),
          ne_of_snds _ _ ' ' '*' hIE hsnd (by decide)⟩)⟩
      · obtain ⟨t, ht, hlen, hnl⟩ := echoBody_lines c.body l hmem
        have htd : threadDigits l = none := threadDigits_none_of_tab l t ht
        have hov : overflowLine l = false := by
          unfold overflowLine
          rw [htd]
        refine ⟨hnl, Or.inr (Or.inr ⟨by rw [ht]; rfl, hov,
          ne_of_len72 l _ hlen (by decide), ne_of_len72 l _ hlen (by decide)⟩)⟩
  · rcases List.mem_cons.mp hl with rfl | hl
    · exact ⟨by decide, Or.inr (Or.inl rfl)⟩
    · simp at hl

theorem runLines_block (dat : Str) (cs : List GoComment)
    (hval : ∀ c ∈ cs, validEchoComment c = true) (s : ParseState)
    (htl : s.topLevelCommentStart = 0) :
    ∃ s', runLines dat s (blockLines cs) = .ok s' ∧ s'.comments = s.comments ∧
      s'.reviewBody = s.reviewBody ∧ s'.topLevelCommentStart = 0 ∧
      s'.foundFirstHunk = s.foundFirstHunk ∧ s'.num = s.num :=
  runLines_starInert dat (blockLines cs) s htl (blockLines_starInert cs hval)

theorem echoLines_noNL (idx : CommitComments GoComment) (hidx : validIdx idx) :
    ∀ (L : List Str) (es : EncState), (∀ l ∈ L, '\n' ∉ l) →
    ∀ x ∈ echoLines idx es L, '\n' ∉ x := by
  intro L
  induction L with
  | nil => intro es _ x hx; simp [echoLines] at hx
  | cons l ls ih =>
    intro es hno x hx
    have hl : '\n' ∉ l := hno l (List.mem_cons_self l ls)
    have hno' : ∀ y ∈ ls, '\n' ∉ y :=
      fun y hy => hno y (List.mem_cons_of_mem l hy)
    rw [echoLines_cons] at hx
    by_cases h1 : ("commit ".toList).isPrefixOf l = true
    · rw [if_pos h1] at hx
      rcases List.mem_cons.mp hx with rfl | hx
      · exact hl
      · exact ih _ hno' x hx
    rw [if_neg h1] at hx
    by_cases h2 : ("diff --git ".toList).isPrefixOf l = true
    · rw [if_pos h2] at hx
      rcases List.mem_cons.mp hx with rfl | hx
      · exact hl
      · exact ih _ hno' x hx
    rw [if_neg h2] at hx
    by_cases h3 : ("+++ b/".toList).isPrefixOf l = true
    · rw [if_pos h3] at hx
      rcases List.mem_cons.mp hx with rfl | hx
      · exact hl
      · exact ih _ hno' x hx
    rw [if_neg h3] at hx
    by_cases h4 : (!es.foundFirstHunk) = true
    · rw [if_pos h4] at hx
      by_cases h5 : ("@@".toList).isPrefixOf l = true
      · rw [if_pos h5] at hx
        rcases List.mem_cons.mp hx with rfl | hx
        · exact hl
        · exact ih _ hno' x hx
      · rw [if_neg h5] at hx
        rcases List.mem_cons.mp hx with rfl | hx
        · exact hl
        · exact ih _ hno' x hx
    rw [if_neg h4] at hx
    cases hget : idx.get es.commit es.file (es.num + 1) with
    | some cs =>
      rw [hget] at hx
      simp only at hx
      rcases List.mem_cons.mp hx with rfl | hx
      · exact hl
      rcases List.mem_append.mp hx with hx | hx
      · exact (blockLines_starInert cs
          (hidx es.commit es.file (es.num + 1) cs hget) x hx).1
      · exact ih _ hno' x hx
    | none =>
      rw [hget] at hx
      simp only at hx
      rcases List.mem_cons.mp hx with rfl | hx
      · exact hl
      · exact ih _ hno' x hx

theorem runLines_calm (dat : Str) (ls : List Str) :
    ∀ s : ParseState, s.topLevelCommentStart = 0 → s.foundFirstHunk = false →
    (∀ l ∈ ls, '\n' ∉ l ∧ l ≠ topLevelStartMarker ∧ l ≠ topLevelEndMarker ∧
      overflowLine l = false ∧ ¬(("@@".toList).isPrefixOf l = true)) →
    ∃ s', runLines dat s ls = .ok s' ∧ s'.comments = s.comments ∧
      s'.reviewBody = s.reviewBody ∧ s'.topLevelCommentStart = 0 ∧
      s'.foundFirstHunk = false := by
  induction ls with
  | nil => intro s htl hffh _; exact ⟨s, rfl, rfl, rfl, htl, hffh⟩
  | cons l rest ih =>
    intro s htl hffh hall
    obtain ⟨hnl, hm1, hm2, hov, hk⟩ := hall l (List.mem_cons_self l rest)
    rw [runLines_cons dat s l rest hnl]
    cases hstep : stepLine dat s l (s.off + (l.length : Int) + 1) with
    | error e =>
      have h2 := stepLine_error_overflow dat s l _ e hstep
      rw [hov] at h2
      cases h2
    | ok s1 =>
      have hb := stepLine_body_inv dat s l _ s1 htl hm1 hm2 hstep
      have hn := stepLine_noHunk_inv dat s l _ s1 hffh hk hstep
      obtain ⟨s', hrun, hc2, hb2, htl2, hf2⟩ := ih s1 hb.2 hn.1
        (fun x hx => hall x (List.mem_cons_of_mem l hx))
      exact ⟨s', by simp only; exact hrun, hc2.trans hn.2.2, hb2.trans hb.1,
        htl2, hf2⟩

theorem runLines_markerPair (dat : Str) (s : ParseState) :
    runLines dat s [topLevelStartMarker, topLevelEndMarker] =
      .ok { s with commentStart := -1, lastCommentStart := -1,
                   topLevelCommentStart := 0,
                   off := s.off + (topLevelStartMarker.length : Int) +
                     (topLevelEndMarker.length : Int) + 2 } := by
  have h1 : '\n' ∉ topLevelStartMarker := by decide
  have h2 : '\n' ∉ topLevelEndMarker := by decide
  rw [runLines_cons dat s _ _ h1, stepLine_tlStart]
  simp only
  rw [runLines_cons _ _ _ _ h2, stepLine_tlEnd]
  rw [if_neg (by simp only [adv]; push_cast; omega)]
  simp only
  rw [runLines_nil]
  congr 1
  apply ParseState.ext <;> simp [adv] <;> push_cast <;> ring

theorem nextFFH_commit (ffh : Bool) (l : Str)
    (h : ("commit ".toList).isPrefixOf l = true) : nextFFH ffh l = false := by
  unfold nextFFH
  rw [if_pos (by rw [h]; rfl)]

theorem nextFFH_diff (ffh : Bool) (l : Str)
    (h : ("diff --git ".toList).isPrefixOf l = true) : nextFFH ffh l = false := by
  unfold nextFFH
  rw [if_pos (by rw [h, Bool.or_true])]

theorem nextFFH_other (ffh : Bool) (l : Str)
    (h1 : ¬(("commit ".toList).isPrefixOf l = true))
    (h2 : ¬(("diff --git ".toList).isPrefixOf l = true))
    (hk : ¬(("@@".toList).isPrefixOf l = true)) : nextFFH ffh l = ffh := by
  unfold nextFFH
  rw [if_neg (by rw [Bool.eq_false_iff.mpr h1, Bool.eq_false_iff.mpr h2]; exact Bool.false_ne_true),
    if_neg (by rw [Bool.eq_false_iff.mpr hk, Bool.and_false]; exact Bool.false_ne_true)]

theorem nextFFH_hunk (ffh : Bool) (l : Str) (hffh : ffh = false)
    (h1 : ¬(("commit ".toList).isPrefixOf l = true))
    (h2 : ¬(("diff --git ".toList).isPrefixOf l = true))
    (hk : ("@@".toList).isPrefixOf l = true) : nextFFH ffh l = true := by
  unfold nextFFH
  rw [if_neg (by rw [Bool.eq_false_iff.mpr h1, Bool.eq_false_iff.mpr h2]; exact Bool.false_ne_true),
    if_pos (by rw [hk, hffh]; rfl)]

theorem nextFFH_post (ffh : Bool) (l : Str) (hffh : ffh = true)
    (h1 : ¬(("commit ".toList).isPrefixOf l = true))
    (h2 : ¬(("diff --git ".toList).isPrefixOf l = true)) :
    nextFFH ffh l = ffh := by
  unfold nextFFH
  rw [if_neg (by rw [Bool.eq_false_iff.mpr h1, Bool.eq_false_iff.mpr h2]; exact Bool.false_ne_true),
    if_neg (by rw [hffh]; simp)]

theorem runLines_echo (dat : Str) (idx : CommitComments GoComment)
    (hidx : validIdx idx) :
    ∀ (L : List Str) (es : EncState) (s : ParseState),
    (∀ l ∈ L, '\n' ∉ l) →
    checkLines es.foundFirstHunk L = true →
    s.topLevelCommentStart = 0 →
    s.foundFirstHunk = es.foundFirstHunk →
    ∃ s', runLines dat s (echoLines idx es L) = .ok s' ∧
      s'.comments = s.comments ∧ s'.reviewBody = s.reviewBody ∧
      s'.topLevelCommentStart = 0 := by
  intro L
  induction L with
  | nil =>
    intro es s _ _ htl _
    exact ⟨s, rfl, rfl, rfl, htl⟩
  | cons l ls ih =>
    intro es s hno hchk htl hsf
    have hl : '\n' ∉ l := hno l (List.mem_cons_self l ls)
    have hno' : ∀ y ∈ ls, '\n' ∉ y :=
      fun y hy => hno y (List.mem_cons_of_mem l hy)
    unfold checkLines at hchk
    simp only [Bool.and_eq_true] at hchk
    obtain ⟨hok, hchk'⟩ := hchk
    unfold lineOKB at hok
    simp only [Bool.and_eq_true] at hok
    obtain ⟨⟨⟨hd1, hd2⟩, hd3⟩, hd4⟩ := hok
    have hm1 : l ≠ topLevelStartMarker := by simpa using hd1
    have hm2 : l ≠ topLevelEndMarker := by simpa using hd2
    have hov : overflowLine l = false := by simpa using hd3
    rw [echoLines_cons]
    by_cases h1 : ("commit ".toList).isPrefixOf l = true
    · rw [if_pos h1, runLines_cons dat s l _ hl,
        stepLine_commitHdr dat s l _ htl h1]
      simp only
      have hnf : nextFFH es.foundFirstHunk l = false :=
        nextFFH_commit es.foundFirstHunk l h1
      rw [hnf] at hchk'
      exact ih _ _ hno' (by exact hchk') (by exact htl) (by rfl)
    rw [if_neg h1]
    by_cases h2 : ("diff --git ".toList).isPrefixOf l = true
    · rw [if_pos h2, runLines_cons dat s l _ hl,
        stepLine_diffHdr dat s l _ htl h2]
      simp only
      have hnf : nextFFH es.foundFirstHunk l = false :=
        nextFFH_diff es.foundFirstHunk l h2
      rw [hnf] at hchk'
      exact ih _ _ hno' (by exact hchk') (by exact htl) (by rfl)
    rw [if_neg h2]
    by_cases h3 : ("+++ b/".toList).isPrefixOf l = true
    · rw [if_pos h3, runLines_cons dat s l _ hl,
        stepLine_fileHdr dat s l _ htl h3]
      simp only
      have hnf : nextFFH es.foundFirstHunk l = es.foundFirstHunk := by
        have hh : l.head? = some '+' :=
          head?_of_prefix '+' ("++ b/".toList) l h3
        exact nextFFH_other es.foundFirstHunk l h1 h2
          (not_hunk_pfx l (by rw [hh]; decide))
      rw [hnf] at hchk'
      exact ih _ _ hno' (by exact hchk') (by exact htl) (by exact hsf)
    rw [if_neg h3]
    by_cases h4 : (!es.foundFirstHunk) = true
    · rw [if_pos h4]
      have hffs : s.foundFirstHunk = false := by
        rw [hsf]
        simpa using h4
      by_cases h5 : ("@@".toList).isPrefixOf l = true
      · rw [if_pos h5, runLines_cons dat s l _ hl,
          stepLine_hunkFirst dat s l _ htl hffs h5]
        simp only
        have hnf : nextFFH es.foundFirstHunk l = true :=
          nextFFH_hunk es.foundFirstHunk l (by simpa using h4) h1 h2 h5
        rw [hnf] at hchk'
        exact ih _ _ hno' (by exact hchk') (by exact htl) (by rfl)
      · rw [if_neg h5]
        have hnf : nextFFH es.foundFirstHunk l = es.foundFirstHunk :=
          nextFFH_other es.foundFirstHunk l h1 h2 h5
        rw [hnf] at hchk'
        have hstep : ∃ s1,
            stepLine dat s l (s.off + (l.length : Int) + 1) = .ok s1 ∧
            s1.comments = s.comments ∧ s1.reviewBody = s.reviewBody ∧
            s1.topLevelCommentStart = 0 ∧
            s1.foundFirstHunk = s.foundFirstHunk := by
          by_cases hil : l = inlineStartMarker
          · subst hil
            exact ⟨_, stepLine_inlineStart dat s _ htl, rfl, rfl, htl, rfl⟩
          by_cases hie : l = inlineEndMarker
          · subst hie
            exact ⟨_, stepLine_inlineEnd dat s _ htl, rfl, rfl, htl, rfl⟩
          cases ht : threadDigits l with
          | some ds =>
            have hato : atoiOk ds = true := by
              unfold overflowLine at hov
              rw [ht] at hov
              simpa using hov
            have hst : stepLine dat s l (s.off + (l.length : Int) + 1) =
                .ok { adv s (s.off + (l.length : Int) + 1) with
                        lastInlineCommentId := (digitsVal ds : Int) } := by
              rw [stepLine_thread dat s l _ ds htl ht, if_pos hato]
            exact ⟨_, hst, rfl, rfl, htl, rfl⟩
          | none =>
            exact ⟨_, stepLine_preHunkOther dat s l _ htl hffs hm1 hm2 hil hie
              ht h1 h2 h3 h5, rfl, rfl, htl, rfl⟩
        obtain ⟨s1, hs1, hc1, hb1, htl1, hf1⟩ := hstep
        rw [runLines_cons dat s l _ hl, hs1]
        simp only
        obtain ⟨s', hrun, hc2, hb2, htl2⟩ := ih es s1 hno' (by exact hchk')
          htl1 (hf1.trans hsf)
        exact ⟨s', hrun, hc2.trans hc1, hb2.trans hb1, htl2⟩
    · rw [if_neg h4]
      have hest : es.foundFirstHunk = true := by simpa using h4
      have hffs : s.foundFirstHunk = true := by rw [hsf, hest]
      have hpost : postHunkOK l = true := by
        have h6 : ((!es.foundFirstHunk) || postHunkOK l) = true := by
          simpa using hd4
        rw [hest] at h6
        simpa using h6
      have hnf : nextFFH es.foundFirstHunk l = es.foundFirstHunk :=
        nextFFH_post es.foundFirstHunk l hest h1 h2
      rw [hnf] at hchk'
      have hstep : ∃ s1,
          stepLine dat s l (s.off + (l.length : Int) + 1) = .ok s1 ∧
          s1.comments = s.comments ∧ s1.reviewBody = s.reviewBody ∧
          s1.topLevelCommentStart = 0 ∧
          s1.foundFirstHunk = s.foundFirstHunk := by
        by_cases hemp : l = []
        · subst hemp
          exact ⟨_, stepLine_empty dat s _ htl hffs, rfl, rfl, htl, rfl⟩
        · have hheads : (l.head? = some '+' || l.head? = some '-' ||
              l.head? = some ' ' || l.head? = some '@') = true := by
            unfold postHunkOK at hpost
            simp only [Bool.or_eq_true] at hpost
            have hne : l.isEmpty = false := by
              cases l with
              | nil => exact absurd rfl hemp
              | cons a t => rfl
            rcases hpost with (((((hp | hp) | hp) | hp) | hp) | hp) | hp
            · rw [hne] at hp; cases hp
            · simp [hp]
            · simp [hp]
            · simp [hp]
            · simp [hp]
            · exact absurd hp h1
            · exact absurd hp h2
          have hbody : isDiffBodyLine l = true := by
            unfold isDiffBodyLine
            rw [hheads]
            simp only [Bool.true_and, Bool.and_eq_true, Bool.not_eq_true']
            constructor
            · cases hfp : ("+++ b/".toList).isPrefixOf l
              · rfl
              · exact absurd hfp h3
            · simpa using hl
          exact ⟨_, stepLine_diffBody dat s l _ htl hffs hbody, rfl, rfl,
            htl, rfl⟩
      obtain ⟨s1, hs1, hc1, hb1, htl1, hf1⟩ := hstep
      cases hget : idx.get es.commit es.file (es.num + 1) with
      | some cs =>
        simp only
        rw [runLines_cons dat s l _ hl, hs1]
        simp only
        rw [runLines_append]
        obtain ⟨s2, hrun2, hc2, hb2, htl2, hf2, _⟩ := runLines_block dat cs
          (hidx es.commit es.file (es.num + 1) cs hget) s1 htl1
        rw [hrun2]
        simp only
        obtain ⟨s', hrun3, hc3, hb3, htl3⟩ :=
          ih { es with num := es.num + 1 } s2 hno' (by exact hchk')
            htl2 (by exact (hf2.trans hf1).trans hsf)
        exact ⟨s', hrun3, (hc3.trans hc2).trans hc1, (hb3.trans hb2).trans hb1,
          htl3⟩
      | none =>
        simp only
        rw [runLines_cons dat s l _ hl, hs1]
        simp only
        obtain ⟨s', hrun3, hc3, hb3, htl3⟩ :=
          ih { es with num := es.num + 1 } s1 hno' (by exact hchk')
            htl1 (by exact hf1.trans hsf)
        exact ⟨s', hrun3, hc3.trans hc1, hb3.trans hb1, htl3⟩

set_option maxRecDepth 8000 in
theorem hdrPre_calm :
    ∀ l ∈ hdrPre, '\n' ∉ l ∧ l ≠ topLevelStartMarker ∧ l ≠ topLevelEndMarker ∧
      overflowLine l = false ∧ ¬(("@@".toList).isPrefixOf l = true) := by
  decide

set_option maxRecDepth 8000 in
theorem hdrPost_calm :
    ∀ l ∈ hdrPost, '\n' ∉ l ∧ l ≠ topLevelStartMarker ∧ l ≠ topLevelEndMarker ∧
      overflowLine l = false ∧ ¬(("@@".toList).isPrefixOf l = true) := by
  decide

set_option maxRecDepth 8000 in
theorem hdr_noNL :
    ∀ l ∈ hdrPre ++ ([topLevelStartMarker, topLevelEndMarker] ++ hdrPost),
      '\n' ∉ l := by
  decide

set_option maxRecDepth 8000 in
theorem printPR_lines :
    printPR ("o".toList) ("r".toList) pr0 [] [] =
      linesJoin (hdrPre ++ ([topLevelStartMarker, topLevelEndMarker] ++ hdrPost)) := by
  rfl

theorem header_run (dat : Str) :
    ∃ s', runLines dat initState
        (hdrPre ++ ([topLevelStartMarker, topLevelEndMarker] ++ hdrPost)) =
          .ok s' ∧
      s'.comments = [] ∧ s'.reviewBody = none ∧
      s'.topLevelCommentStart = 0 ∧ s'.foundFirstHunk = false := by
  obtain ⟨sA, hA, hcA, hbA, htlA, hfA⟩ :=
    runLines_calm dat hdrPre initState rfl rfl hdrPre_calm
  obtain ⟨sB, hB, hcB, hbB, htlB, hfB⟩ :=
    runLines_calm dat hdrPost
      { sA with commentStart := -1, lastCommentStart := -1,
                topLevelCommentStart := 0,
                off := sA.off + (topLevelStartMarker.length : Int) +
                  (topLevelEndMarker.length : Int) + 2 }
      rfl (by exact hfA) hdrPost_calm
  refine ⟨sB, ?_, ?_, ?_, htlB, hfB⟩
  · rw [runLines_append, hA]
    simp only
    rw [runLines_append, runLines_markerPair]
    simp only
    exact hB
  · exact hcB.trans (by exact hcA)
  · exact hbB.trans (by exact hbA)

/-- C2 (amended): round-trip idempotence holds on the untouched template for
the fixed benign metadata (`pr0`, empty status text, no prior discussion),
any index of existing inline comments whose echoed header lines are
single-line and do not overflow `strconv.Atoi`, and any newline-terminated
diff whose lines after a first hunk header are blank, special-headed, or
section headers.  Decoding then yields no draft comments and no top-level
body.  The restriction is necessary: a legal git diff containing the line
`\ No newline at end of file` makes the decoder create a spurious draft
comment, so the claim is false for arbitrary diff text. -/
theorem c2_unedited_template_roundtrip (idx : CommitComments GoComment)
    (diffText : Str) (hidx : validIdx idx)
    (hdiff : checkDiff diffText = true) :
    ∃ r, parseFile (makeReviewTemplate ("o".toList) ("r".toList) pr0 []
        [] idx diffText) = .ok r ∧ r.comments = [] ∧ r.body = none := by
  by_cases hemp : diffText = []
  · subst hemp
    have htmpl : makeReviewTemplate ("o".toList) ("r".toList) pr0 [] [] idx [] =
        linesJoin (hdrPre ++ ([topLevelStartMarker, topLevelEndMarker] ++
          hdrPost)) := by
      unfold makeReviewTemplate
      rw [show diffEcho idx encInit (splitAfterNL ([] : Str)) = [] from rfl,
        List.append_nil, printPR_lines]
    rw [htmpl, parseFile_runLines _ hdr_noNL]
    obtain ⟨s', hrun, hc, hb, _, _⟩ := header_run
      (linesJoin (hdrPre ++ ([topLevelStartMarker, topLevelEndMarker] ++
        hdrPost)))
    rw [hrun]
    exact ⟨_, rfl, hc, hb⟩
  · have hchk0 : diffText.getLast? = some '\n' ∧
        checkFrags false (splitAfterNL diffText) = true := by
      unfold checkDiff at hdiff
      have hie : diffText.isEmpty = false := by
        cases diffText with
        | nil => exact absurd rfl hemp
        | cons a t => rfl
      rw [hie] at hdiff
      simp only [Bool.false_or, Bool.and_eq_true] at hdiff
      exact ⟨by simpa using hdiff.1, hdiff.2⟩
    obtain ⟨hlast, hfr0⟩ := hchk0
    have hgl : diffText.getLast hemp = '\n' := by
      have h3 := List.getLast?_eq_getLast diffText hemp
      rw [h3] at hlast
      exact Option.some.inj hlast
    have hdt : diffText = diffText.dropLast ++ ['\n'] := by
      conv_lhs => rw [← List.dropLast_append_getLast hemp]
      rw [hgl]
    have hnoL := splitNL_mem_noNL diffText.dropLast
    have hfr : splitAfterNL diffText =
        (splitNL diffText.dropLast).map (fun l => l ++ ['\n']) ++ [[]] := by
      conv_lhs => rw [hdt]
      exact splitAfterNL_append_nl _
    have hchkL : checkLines false (splitNL diffText.dropLast) = true := by
      rw [← checkFrags_lines _ false hnoL, ← hfr]
      exact hfr0
    have hecho : diffEcho idx encInit (splitAfterNL diffText) =
        linesJoin (echoLines idx encInit (splitNL diffText.dropLast)) := by
      rw [hfr]
      exact diffEcho_echoLines idx _ encInit hnoL
    have htmpl : makeReviewTemplate ("o".toList) ("r".toList) pr0 [] []
        idx diffText =
        linesJoin ((hdrPre ++ ([topLevelStartMarker, topLevelEndMarker] ++
            hdrPost)) ++
          echoLines idx encInit (splitNL diffText.dropLast)) := by
      unfold makeReviewTemplate
      rw [printPR_lines, hecho]
      simp [linesJoin_append, linesJoin_cons, List.append_assoc]
    have hallno : ∀ l ∈ (hdrPre ++ ([topLevelStartMarker, topLevelEndMarker] ++
        hdrPost)) ++ echoLines idx encInit (splitNL diffText.dropLast),
        '\n' ∉ l := by
      intro l hl
      rcases List.mem_append.mp hl with hl | hl
      · exact hdr_noNL l hl
      · exact echoLines_noNL idx hidx _ encInit hnoL l hl
    rw [htmpl, parseFile_runLines _ hallno, runLines_append]
    obtain ⟨sB, hB, hcB, hbB, htlB, hfB⟩ := header_run
      (linesJoin ((hdrPre ++ ([topLevelStartMarker, topLevelEndMarker] ++
          hdrPost)) ++
        echoLines idx encInit (splitNL diffText.dropLast)))
    rw [hB]
    simp only
    obtain ⟨s', hrun, hc, hb, _⟩ := runLines_echo
      (linesJoin ((hdrPre ++ ([topLevelStartMarker, topLevelEndMarker] ++
          hdrPost)) ++
        echoLines idx encInit (splitNL diffText.dropLast)))
      idx hidx (splitNL diffText.dropLast) encInit sB hnoL (by exact hchkL)
      htlB (by exact hfB)
    rw [hrun]
    exact ⟨_, rfl, hc.trans hcB, hb.trans hbB⟩

set_option maxRecDepth 10000 in
/-- C2 counterexample: the round trip is not idempotent for every diff text.
On a legal git diff whose hunk contains the marker line
`\ No newline at end of file` (which begins with a backslash, not one of
the special characters), the decoder treats that line as a user comment and
the unedited template decodes to one draft comment instead of zero. -/
theorem c2_roundtrip_counterexample :
    (parseFile (makeReviewTemplate ("o".toList) ("r".toList) pr0 [] [] []
        ("commit c1\ndiff --git a/a.txt b/a.txt\n--- a/a.txt\n+++ b/a.txt\n@@ -1,1 +1,1 @@\n-foo\n+bar\n\\ No newline at end of file\n".toList))).map
      (fun r => r.comments.map (fun c => (c.path, c.position))) =
      .ok [("a.txt".toList, (2 : Int))] := by
  rfl

/-- Witness for the amended C2 on a concrete disciplined diff with an empty
comment index. -/
theorem c2_unedited_template_roundtrip_witness :
    ∃ r, parseFile (makeReviewTemplate ("o".toList) ("r".toList) pr0 []
        [] [] ("commit c1\n@@ h\n+x\n".toList)) = .ok r ∧
      r.comments = [] ∧ r.body = none :=
  c2_unedited_template_roundtrip [] ("commit c1\n@@ h\n+x\n".toList)
    (fun commit file n cs h => by simp [CommitComments.get, lookupA] at h)
    (by decide)

theorem diffEcho_noHunk (idx : CommitComments GoComment) (frags : List Str) :
    ∀ es : EncState, es.foundFirstHunk = false →
    (∀ f ∈ frags, ¬(("@@".toList).isPrefixOf (trimRightNL f) = true)) →
    [] ∉ frags →
    diffEcho idx es frags = frags.flatten := by
  induction frags with
  | nil => intro es _ _ _; rfl
  | cons f fs ih =>
    intro es hffh hk hne
    have hf : ¬(f = []) := fun he => hne (he ▸ List.mem_cons_self f fs)
    have hkf := hk f (List.mem_cons_self f fs)
    have hk' := fun x hx => hk x (List.mem_cons_of_mem f hx)
    have hne' : [] ∉ fs := fun hm => hne (List.mem_cons_of_mem f hm)
    conv_lhs => rw [diffEcho.eq_def]
    simp only
    rw [if_neg hf]
    by_cases h1 : ("commit ".toList).isPrefixOf (trimRightNL f) = true
    · rw [if_pos h1, ih _ rfl hk' hne']
      rfl
    rw [if_neg h1]
    by_cases h2 : ("diff --git ".toList).isPrefixOf (trimRightNL f) = true
    · rw [if_pos h2, ih _ rfl hk' hne']
      rfl
    rw [if_neg h2]
    by_cases h3 : ("+++ b/".toList).isPrefixOf (trimRightNL f) = true
    · rw [if_pos h3, ih _ (by exact hffh) hk' hne']
      rfl
    rw [if_neg h3]
    rw [if_pos (by rw [hffh]; rfl), if_neg hkf]
    rw [ih es hffh hk' hne']
    rfl

/-- C5: a `commit <id>` header line resets hunk tracking in both decoder and
encoder.  Decoder: from then on, as long as no line begins with `@@`, the
position counter never advances and no draft comment is created — a new
first hunk header is needed before anything is anchored.  Encoder: the
diff-echo loop of `makeReviewTemplate` likewise resets its `foundFirstHunk`
flag at the `commit` header, so until a new hunk header it copies every
fragment verbatim and inserts no inline comment block, whatever the comment
index holds and whatever position it had reached before. -/
theorem c5_reset_on_revision_boundary (dat : Str) (s : ParseState)
    (idx : CommitComments GoComment) (es : EncState)
    (cLine : Str) (frags : List Str)
    (htl : s.topLevelCommentStart = 0)
    (hc : ("commit ".toList).isPrefixOf cLine = true) (hcnl : '\n' ∉ cLine)
    (hk : ∀ f ∈ frags, ¬(("@@".toList).isPrefixOf (trimRightNL f) = true)) :
    (∀ s', runFrags dat s ((cLine ++ ['\n']) :: frags) = .ok s' →
      s'.foundFirstHunk = false ∧ s'.num = s.num ∧
      s'.comments = s.comments) ∧
    ([] ∉ frags →
      diffEcho idx es ((cLine ++ ['\n']) :: frags) =
        (cLine ++ ['\n']) ++ frags.flatten) := by
  constructor
  · intro s' hrun
    unfold runFrags at hrun
    rw [if_neg (by simp)] at hrun
    rw [step_frag dat s cLine hcnl,
      stepLine_commitHdr dat s cLine _ htl hc] at hrun
    have h2 := runFrags_noHunk_inv dat frags _ s' (by rfl) hk hrun
    exact ⟨h2.1, h2.2.1, h2.2.2⟩
  · intro hne
    rw [diffEcho_cons idx es cLine hcnl frags, if_pos hc,
      diffEcho_noHunk idx frags _ rfl hk hne]

/-- Witness for C5: after `commit deadbeef`, subsequent non-hunk lines leave
the decoder's position and comment list untouched with hunk tracking off,
and the encoder copies the same fragments verbatim — no inline block is
inserted even though its index holds a comment at the very next position of
the same file and it was mid-hunk before the header. -/
theorem c5_reset_on_revision_boundary_witness :
    (runFrags ("commit deadbeef\n+++ b/a.txt\n x\ntext\n".toList)
      { commit := "c0".toList, file := "a.txt".toList, num := 5,
        foundFirstHunk := true, commentStart := -1, lastCommentStart := -1,
        topLevelCommentStart := 0, lastInlineCommentId := 0,
        reviewBody := none, reviewCommitID := some ("c0".toList),
        comments := [], off := 0 }
      (("commit deadbeef".toList ++ ['\n']) ::
        ["+++ b/a.txt\n".toList, " x\n".toList, "text\n".toList]) =
      .ok { commit := "deadbeef".toList, file := "a.txt".toList, num := 5,
            foundFirstHunk := false, commentStart := -1,
            lastCommentStart := -1, topLevelCommentStart := 0,
            lastInlineCommentId := 0, reviewBody := none,
            reviewCommitID := some ("deadbeef".toList), comments := [],
            off := 36 } ∧
     ({ commit := "deadbeef".toList, file := "a.txt".toList, num := 5,
        foundFirstHunk := false, commentStart := -1,
        lastCommentStart := -1, topLevelCommentStart := 0,
        lastInlineCommentId := 0, reviewBody := none,
        reviewCommitID := some ("deadbeef".toList), comments := [],
        off := 36 : ParseState }.foundFirstHunk = false ∧
      { commit := "deadbeef".toList, file := "a.txt".toList, num := 5,
        foundFirstHunk := false, commentStart := -1,
        lastCommentStart := -1, topLevelCommentStart := 0,
        lastInlineCommentId := 0, reviewBody := none,
        reviewCommitID := some ("deadbeef".toList), comments := [],
        off := 36 : ParseState }.num = (5 : Int) ∧
      { commit := "deadbeef".toList, file := "a.txt".toList, num := 5,
        foundFirstHunk := false, commentStart := -1,
        lastCommentStart := -1, topLevelCommentStart := 0,
        lastInlineCommentId := 0, reviewBody := none,
        reviewCommitID := some ("deadbeef".toList), comments := [],
        off := 36 : ParseState }.comments = [])) ∧
    diffEcho
      [( "deadbeef".toList,
         [( "a.txt".toList,
            [( (6 : Int),
               [{ commitID := "deadbeef".toList, path := "a.txt".toList,
                  position := some 6, id := 7, userLogin := "u".toList,
                  createdAt := "d".toList, body := "b".toList,
                  inReplyTo := none : GoComment }] )] )] )]
      { commit := "deadbeef".toList, file := "a.txt".toList, num := 5,
        foundFirstHunk := true }
      (("commit deadbeef".toList ++ ['\n']) ::
        ["+++ b/a.txt\n".toList, " x\n".toList, "text\n".toList]) =
      "commit deadbeef\n+++ b/a.txt\n x\ntext\n".toList := by
  have h := c5_reset_on_revision_boundary
    ("commit deadbeef\n+++ b/a.txt\n x\ntext\n".toList)
    { commit := "c0".toList, file := "a.txt".toList, num := 5,
      foundFirstHunk := true, commentStart := -1, lastCommentStart := -1,
      topLevelCommentStart := 0, lastInlineCommentId := 0,
      reviewBody := none, reviewCommitID := some ("c0".toList),
      comments := [], off := 0 }
    [( "deadbeef".toList,
       [( "a.txt".toList,
          [( (6 : Int),
             [{ commitID := "deadbeef".toList, path := "a.txt".toList,
                position := some 6, id := 7, userLogin := "u".toList,
                createdAt := "d".toList, body := "b".toList,
                inReplyTo := none : GoComment }] )] )] )]
    { commit := "deadbeef".toList, file := "a.txt".toList, num := 5,
      foundFirstHunk := true }
    ("commit deadbeef".toList)
    ["+++ b/a.txt\n".toList, " x\n".toList, "text\n".toList]
    rfl (by decide) (by decide) (by decide)
  refine ⟨⟨rfl, ?_⟩, ?_⟩
  · exact h.1
      { commit := "deadbeef".toList, file := "a.txt".toList, num := 5,
        foundFirstHunk := false, commentStart := -1,
        lastCommentStart := -1, topLevelCommentStart := 0,
        lastInlineCommentId := 0, reviewBody := none,
        reviewCommitID := some ("deadbeef".toList), comments := [],
        off := 36 } rfl
  · rw [h.2 (by decide)]
    rfl
